import Mathlib

/-!
# Mountain Craft: a lazily expanded segment tree tracking the length of a union of intervals

Shallow embedding of `src/H/soln.cpp`.

* `SegmentTree` mirrors the C++ class field by field; the two child pointers are two
  independent `Option`s, `none` standing for `nullptr`.
* The `long long` fields and the `int interval_count` are mathematical integers: signed
  overflow has no defined result in C++, and `interval_count_bounded` below shows that the
  depth counter moves by at most the number of calls made.
* The narrowing conversions of `main` (`int left = x - y`, `int right = x + y - 1`, and the
  `std::pair<int, int>` built from two `long long`) are defined, modular conversions; they are
  modelled by `toInt32`.
* `update` is recursive on freshly created children, so the embedding carries a fuel
  argument (`updateFuel`); `update` supplies the span length of the node plus one as fuel,
  and `updateFuel_rep` shows that this is always enough on trees that the program can build.
* Dereferencing a null child and running out of fuel both give `none`.
-/

/-- The class `SegmentTree` of the source: bounds (inclusive), number of intervals recorded
at the node, number of covered cells, and the two child pointers. -/
inductive SegmentTree where
  | mk (left_bound right_bound : Int) (interval_count : Int) (covered_cell_count : Int)
      (left_child right_child : Option SegmentTree)

namespace SegmentTree

/-- Field `left_bound`. -/
def left_bound : SegmentTree → Int
  | mk lb _ _ _ _ _ => lb

/-- Field `right_bound`. -/
def right_bound : SegmentTree → Int
  | mk _ rb _ _ _ _ => rb

/-- Field `interval_count`. -/
def interval_count : SegmentTree → Int
  | mk _ _ ic _ _ _ => ic

/-- Field `covered_cell_count`. -/
def covered_cell_count : SegmentTree → Int
  | mk _ _ _ cc _ _ => cc

/-- Field `left_child`. -/
def left_child : SegmentTree → Option SegmentTree
  | mk _ _ _ _ l _ => l

/-- Field `right_child`. -/
def right_child : SegmentTree → Option SegmentTree
  | mk _ _ _ _ _ r => r

/-- The constructor `SegmentTree(left_bound, right_bound)`: counters at zero, no children. -/
def new (left_bound right_bound : Int) : SegmentTree :=
  mk left_bound right_bound 0 0 none none

/-- The method `add_children_as_needed`: nothing happens when the left child exists;
otherwise both children are created, split at `(left_bound + right_bound) / 2`
(C++ division, which truncates towards zero). -/
def add_children_as_needed : SegmentTree → SegmentTree
  | mk lb rb ic cc (some l) r => mk lb rb ic cc (some l) r
  | mk lb rb ic cc none _ =>
    let mid := (lb + rb).tdiv 2
    mk lb rb ic cc (some (new lb mid)) (some (new (mid + 1) rb))

/-- The method `recalculate_coverage`. The last branch reads both children, so a missing
right child next to an existing left child is a null dereference (`none`). -/
def recalculate_coverage : SegmentTree → Option SegmentTree
  | mk lb rb ic _ l r =>
    if ic > 0 then some (mk lb rb ic (rb - lb + 1) l r)
    else
      match l with
      | none => some (mk lb rb ic 0 l r)
      | some lc =>
        match r with
        | none => none
        | some rc => some (mk lb rb ic (lc.covered_cell_count + rc.covered_cell_count) l r)

/-- The method `update`, with a bound on the recursion depth. -/
def updateFuel : Nat → SegmentTree → Int → Int → Int → Option SegmentTree
  | 0, _, _, _, _ => none
  | fuel + 1, mk lb rb ic cc l r, interval_left, interval_right, val =>
    if interval_right < lb ∨ interval_left > rb then
      some (mk lb rb ic cc l r)
    else if interval_left ≤ lb ∧ interval_right ≥ rb then
      recalculate_coverage (mk lb rb (ic + val) cc l r)
    else
      match add_children_as_needed (mk lb rb ic cc l r) with
      | mk lb1 rb1 ic1 cc1 (some lc) (some rc) =>
        match updateFuel fuel lc interval_left interval_right val with
        | none => none
        | some lc1 =>
          match updateFuel fuel rc interval_left interval_right val with
          | none => none
          | some rc1 => recalculate_coverage (mk lb1 rb1 ic1 cc1 (some lc1) (some rc1))
      | _ => none

/-- The method `update` called on a node: the fuel is one more than the number of cells of
the node, which bounds the depth of the recursion below it. -/
def update (t : SegmentTree) (interval_left interval_right val : Int) : Option SegmentTree :=
  updateFuel ((t.right_bound - t.left_bound + 1).toNat + 1) t interval_left interval_right val

/-- All nodes of a tree, the root first. -/
def nodes : SegmentTree → List SegmentTree
  | mk lb rb ic cc l r =>
    mk lb rb ic cc l r ::
      ((match l with
        | none => []
        | some t => nodes t) ++
       (match r with
        | none => []
        | some t => nodes t))

end SegmentTree

/-- One call `update(interval_left, interval_right, val)`. -/
abbrev Call := Int × Int × Int

/-- A sequence of `update` calls applied to the root, first call first. -/
def runUpdates : SegmentTree → List Call → Option SegmentTree
  | t, [] => some t
  | t, c :: cs =>
    match t.update c.1 c.2.1 c.2.2 with
    | none => none
    | some t1 => runUpdates t1 cs

/-- Conversion of a 64-bit value to `int`: reduction modulo `2^32` into `[-2^31, 2^31)`. -/
def toInt32 (z : Int) : Int := (z + 2147483648) % 4294967296 - 2147483648

namespace H

/-- The variables of `main` that live across iterations: the tree `T` and the set
`mountains`. -/
structure MainState where
  T : SegmentTree
  mountains : Finset (Int × Int)

/-- The value `left` of one iteration of `main`: `int left = x - y`. -/
def eventLeft (x y : Int) : Int := toInt32 (x - y)

/-- The value `right` of one iteration of `main`: `int right = x + y - 1`. -/
def eventRight (x y : Int) : Int := toInt32 (x + y - 1)

/-- The key `{x, y}` looked up in `mountains`, a `std::pair<int, int>`. -/
def eventKey (x y : Int) : Int × Int := (toInt32 x, toInt32 y)

/-- The body of the loop of `main` for the event `(x, y)`, up to the output statement. -/
def processEvent (s : MainState) (e : Int × Int) : Option MainState :=
  if eventKey e.1 e.2 ∈ s.mountains then
    match s.T.update (eventLeft e.1 e.2) (eventRight e.1 e.2) (-1) with
    | none => none
    | some T1 => some ⟨T1, s.mountains.erase (eventKey e.1 e.2)⟩
  else
    match s.T.update (eventLeft e.1 e.2) (eventRight e.1 e.2) 1 with
    | none => none
    | some T1 => some ⟨T1, insert (eventKey e.1 e.2) s.mountains⟩

/-- The loop of `main`: the final state and the values of `T.covered_cell_count` read by the
output statement of each iteration (the program prints each of them times `sqrt(2)`). -/
def mainLoop : MainState → List (Int × Int) → Option (MainState × List Int)
  | s, [] => some (s, [])
  | s, e :: es =>
    match processEvent s e with
    | none => none
    | some s1 =>
      match mainLoop s1 es with
      | none => none
      | some (s2, outs) => some (s2, s1.T.covered_cell_count :: outs)

/-- The state of `main` before the loop: `SegmentTree T(0, w - 1)` and an empty set. -/
def initial (w : Int) : MainState := ⟨SegmentTree.new 0 (w - 1), ∅⟩

/-- The function `main` on width `w` and the events read from the input. -/
def main (w : Int) (events : List (Int × Int)) : Option (MainState × List Int) :=
  mainLoop (initial w) events

end H

/-! ## Specification side -/

/-- Sum of the `val` arguments of a list of calls. -/
def valSum (cs : List Call) : Int := (cs.map (fun c => c.2.2)).sum

/-- Number of `+1` calls minus number of `-1` calls made for the interval `[l, r]`. -/
def net (cs : List Call) (l r : Int) : Int :=
  valSum (cs.filter (fun c => decide (c.1 = l ∧ c.2.1 = r)))

/-- Coordinate `p` lies in an interval whose net number of insertions is positive. Such an
interval always occurs among the calls (`activeAt_iff`), so it is searched there. -/
def activeAt (cs : List Call) (p : Int) : Prop :=
  ∃ c ∈ cs, c.1 ≤ p ∧ p ≤ c.2.1 ∧ 0 < net cs c.1 c.2.1

instance (cs : List Call) : DecidablePred (activeAt cs) := fun _ =>
  inferInstanceAs (Decidable (∃ c ∈ cs, _))

/-- Number of coordinates of `[lb, rb]` covered by at least one net-active interval. -/
def coveredCoords (lb rb : Int) (cs : List Call) : Int :=
  (((Finset.Icc lb rb).filter (activeAt cs)).card : Int)

/-- Every call has `0 ≤ l ≤ r ≤ W - 1` and `val` equal to `+1` or `-1`. -/
def InRange (W : Int) (cs : List Call) : Prop :=
  ∀ c ∈ cs, 0 ≤ c.1 ∧ c.1 ≤ c.2.1 ∧ c.2.1 ≤ W - 1 ∧ (c.2.2 = 1 ∨ c.2.2 = -1)

/-- Every `-1` call for an interval comes after strictly more `+1` calls than `-1` calls for
that same interval. -/
def BalancedCalls (cs : List Call) : Prop :=
  ∀ (i : Nat) (h : i < cs.length), cs[i].2.2 = -1 → 0 < net (cs.take i) cs[i].1 cs[i].2.1

instance (cs : List Call) : Decidable (BalancedCalls cs) :=
  inferInstanceAs (Decidable (∀ (i : Nat) (_ : i < cs.length), _))

instance (W : Int) (cs : List Call) : Decidable (InRange W cs) :=
  inferInstanceAs (Decidable (∀ c ∈ cs, _))

/-- The interval that `main` passes to `update` for a mountain stored under key `m`. -/
def keyInterval (m : Int × Int) : Int × Int := (toInt32 (m.1 - m.2), toInt32 (m.1 + m.2 - 1))

/-- Number of coordinates of `[0, W - 1]` lying in the interval of some mountain of `M`. -/
def coveredByMountains (W : Int) (M : Finset (Int × Int)) : Int :=
  (((Finset.Icc 0 (W - 1)).filter
    (fun p => ∃ m ∈ M, (keyInterval m).1 ≤ p ∧ p ≤ (keyInterval m).2)).card : Int)

/-- Number of coordinates `c` of `[0, W - 1]` with `x - y ≤ c ≤ x + y - 1` for some pair
`(x, y)` that occurs an odd number of times in `es`. -/
def coveredByOdd (W : Int) (es : List (Int × Int)) : Int :=
  (((Finset.Icc 0 (W - 1)).filter
    (fun c => ∃ e ∈ es, es.count e % 2 = 1 ∧ e.1 - e.2 ≤ c ∧ c ≤ e.1 + e.2 - 1)).card : Int)

/-- The set `mountains` after one more event with key `k`. -/
def toggle (M : Finset (Int × Int)) (k : Int × Int) : Finset (Int × Int) :=
  if k ∈ M then M.erase k else insert k M

/-- The set `mountains` after the events `es`, starting from `M`. -/
def mountainsAfter (M : Finset (Int × Int)) (es : List (Int × Int)) : Finset (Int × Int) :=
  es.foldl (fun M e => toggle M (H.eventKey e.1 e.2)) M

/-- Events as the input format promises them for width `W`: half-width `y ≥ 0` and the
interval `[x - y, x + y - 1]` inside `[0, W - 1]`. -/
def EventsInRange (W : Int) (es : List (Int × Int)) : Prop :=
  ∀ e ∈ es, 0 ≤ e.2 ∧ 0 ≤ e.1 - e.2 ∧ e.1 + e.2 - 1 ≤ W - 1

instance (W : Int) (es : List (Int × Int)) : Decidable (EventsInRange W es) :=
  inferInstanceAs (Decidable (∀ e ∈ es, _))

/-! ## The representation invariant -/

/-- Case 1 of `update` at a node with bounds `[lb, rb]`: the call misses the node. -/
def missesNode (lb rb : Int) (c : Call) : Bool := decide (c.2.1 < lb ∨ c.1 > rb)

/-- Case 2 of `update`: the call is counted at the node. -/
def coversNode (lb rb : Int) (c : Call) : Bool :=
  !missesNode lb rb c && decide (c.1 ≤ lb ∧ c.2.1 ≥ rb)

/-- Case 3 of `update`: the call is passed on to the children. -/
def splitsNode (lb rb : Int) (c : Call) : Bool :=
  !missesNode lb rb c && !decide (c.1 ≤ lb ∧ c.2.1 ≥ rb)

/-- The tree `t` is what the calls `cs` that reached its root have built: counters are the
sums of the calls counted at each node, covered counts are up to date, children have the
halves of the span of their parent and were reached by the calls that split the parent. -/
inductive Represents : SegmentTree → List Call → Prop
  | leaf (lb rb ic cc : Int) (cs : List Call) :
      0 ≤ lb → lb ≤ rb →
      ic = valSum (cs.filter (coversNode lb rb)) →
      cc = (if ic > 0 then rb - lb + 1 else 0) →
      cs.filter (splitsNode lb rb) = [] →
      Represents (SegmentTree.mk lb rb ic cc none none) cs
  | node (lb rb ic cc : Int) (l r : SegmentTree) (cs : List Call) :
      0 ≤ lb → lb < rb →
      ic = valSum (cs.filter (coversNode lb rb)) →
      cc = (if ic > 0 then rb - lb + 1
            else l.covered_cell_count + r.covered_cell_count) →
      l.left_bound = lb → l.right_bound = (lb + rb).tdiv 2 →
      r.left_bound = (lb + rb).tdiv 2 + 1 → r.right_bound = rb →
      Represents l (cs.filter (splitsNode lb rb)) →
      Represents r (cs.filter (splitsNode lb rb)) →
      Represents (SegmentTree.mk lb rb ic cc (some l) (some r)) cs

/-- Invariant of the loop of `main`: the tree represents the calls made so far, the net
count of every interval is the number of active mountains that map to it, and every call
made was an insertion or a removal. -/
def MainInv (W : Int) (s : H.MainState) (cs : List Call) : Prop :=
  Represents s.T cs ∧ s.T.left_bound = 0 ∧ s.T.right_bound = W - 1 ∧
    (∀ l r, net cs l r = ((s.mountains.filter (fun m => keyInterval m = (l, r))).card : Int)) ∧
    ∀ c ∈ cs, c.2.2 = 1 ∨ c.2.2 = -1

/-- The tree built by `SegmentTree(0, W - 1)` for a width `W ≤ 0`: its span is empty, so
`update` can only count at the root. -/
def emptySpanTree (W ic : Int) : SegmentTree :=
  SegmentTree.mk 0 (W - 1) ic (if ic > 0 then W - 1 - 0 + 1 else 0) none none

/-- The invariant of the data model at one node: a positive count forces the full span, and
a zero count makes the covered count the sum over the children, or zero without children. -/
def NodeInvariant (n : SegmentTree) : Prop :=
  (n.interval_count > 0 → n.covered_cell_count = n.right_bound - n.left_bound + 1) ∧
  (n.interval_count = 0 →
    match n.left_child, n.right_child with
    | some l, some r => n.covered_cell_count = l.covered_cell_count + r.covered_cell_count
    | none, none => n.covered_cell_count = 0
    | _, _ => False)

/-- The shape of the tree at one node: a non-empty span; no child at all or both children;
when they exist the node is wider than one cell, the left child spans `[left_bound, mid]` and
the right child `[mid + 1, right_bound]` with `mid = ⌊(left_bound + right_bound) / 2⌋`, and
both children have non-empty spans. -/
def ShapeInvariant (n : SegmentTree) : Prop :=
  n.left_bound ≤ n.right_bound ∧
  match n.left_child, n.right_child with
  | none, none => True
  | some l, some r =>
    n.left_bound < n.right_bound ∧
    l.left_bound = n.left_bound ∧ l.right_bound = (n.left_bound + n.right_bound) / 2 ∧
    r.left_bound = (n.left_bound + n.right_bound) / 2 + 1 ∧ r.right_bound = n.right_bound ∧
    l.left_bound ≤ l.right_bound ∧ r.left_bound ≤ r.right_bound
  | _, _ => False

/-- All nodes of a tree, each with the bounds of its parent (`none` for the root). -/
def SegmentTree.nodesWithParent :
    SegmentTree → Option (Int × Int) → List (SegmentTree × Option (Int × Int))
  | SegmentTree.mk lb rb ic cc l r, par =>
    (SegmentTree.mk lb rb ic cc l r, par) ::
      ((match l with
        | none => []
        | some t => nodesWithParent t (some (lb, rb))) ++
       (match r with
        | none => []
        | some t => nodesWithParent t (some (lb, rb))))

/-- The interval of the call contains the whole span `[lb, rb]`. -/
def containsSpan (lb rb : Int) (c : Call) : Bool := decide (c.1 ≤ lb ∧ rb ≤ c.2.1)

/-- The interval of the call does not contain the whole span of the parent (always true at
the root, which has no parent). -/
def missesParent (par : Option (Int × Int)) (c : Call) : Bool :=
  match par with
  | none => true
  | some p => !containsSpan p.1 p.2 c

/-- The span of the parent `par`, when there is one, contains `[lb, rb]`. -/
def parentContains (par : Option (Int × Int)) (lb rb : Int) : Prop :=
  match par with
  | none => True
  | some p => p.1 ≤ lb ∧ rb ≤ p.2

/-- The intervals counted at a node with bounds `[lb, rb]` and parent `par`: they contain the
whole span of the node but not the whole span of its parent. -/
def countedAt (lb rb : Int) (par : Option (Int × Int)) (c : Call) : Bool :=
  containsSpan lb rb c && missesParent par c

/-- Number of net-active intervals selected by `P`, counted with multiplicity: the sum, over
the intervals with a positive net count that satisfy `P`, of their net count. -/
def activeMultiplicity (cs : List Call) (P : Call → Bool) : Int :=
  ∑ I ∈ (cs.map (fun c => (c.1, c.2.1))).toFinset.filter
      (fun I => P (I.1, I.2, 0) = true ∧ 0 < net cs I.1 I.2),
    net cs I.1 I.2

/-- Coordinate `p` lies in a net-active interval that does not contain the whole span of the
parent `par`. -/
def activeBelow (par : Option (Int × Int)) (cs : List Call) (p : Int) : Prop :=
  ∃ c ∈ cs, missesParent par c = true ∧ c.1 ≤ p ∧ p ≤ c.2.1 ∧ 0 < net cs c.1 c.2.1

instance (par : Option (Int × Int)) (cs : List Call) : DecidablePred (activeBelow par cs) :=
  fun _ => inferInstanceAs (Decidable (∃ c ∈ cs, _))

/-- Number of coordinates of `[lb, rb]` covered by a net-active interval that does not
contain the whole span of the parent `par`. -/
def coveredBelow (lb rb : Int) (par : Option (Int × Int)) (cs : List Call) : Int :=
  (((Finset.Icc lb rb).filter (activeBelow par cs)).card : Int)

/-- The node at a position of the tree: the position is the path from the root, `false` for
a step to the left child and `true` for a step to the right child. -/
def SegmentTree.nodeAt : SegmentTree → List Bool → Option SegmentTree
  | t, [] => some t
  | t, false :: p =>
    match t.left_child with
    | none => none
    | some lt => nodeAt lt p
  | t, true :: p =>
    match t.right_child with
    | none => none
    | some rt => nodeAt rt p

/-! ## Basic facts -/

theorem SegmentTree.left_bound_mk (lb rb ic cc : Int) (l r : Option SegmentTree) :
    (SegmentTree.mk lb rb ic cc l r).left_bound = lb := rfl

theorem SegmentTree.right_bound_mk (lb rb ic cc : Int) (l r : Option SegmentTree) :
    (SegmentTree.mk lb rb ic cc l r).right_bound = rb := rfl

theorem SegmentTree.interval_count_mk (lb rb ic cc : Int) (l r : Option SegmentTree) :
    (SegmentTree.mk lb rb ic cc l r).interval_count = ic := rfl

theorem SegmentTree.covered_cell_count_mk (lb rb ic cc : Int) (l r : Option SegmentTree) :
    (SegmentTree.mk lb rb ic cc l r).covered_cell_count = cc := rfl

theorem SegmentTree.left_child_mk (lb rb ic cc : Int) (l r : Option SegmentTree) :
    (SegmentTree.mk lb rb ic cc l r).left_child = l := rfl

theorem SegmentTree.right_child_mk (lb rb ic cc : Int) (l r : Option SegmentTree) :
    (SegmentTree.mk lb rb ic cc l r).right_child = r := rfl

theorem mid_bounds (lb rb : Int) (h0 : 0 ≤ lb) (h : lb < rb) :
    lb ≤ (lb + rb).tdiv 2 ∧ (lb + rb).tdiv 2 < rb := by
  rw [Int.tdiv_eq_ediv (by omega) (by omega)]
  omega

theorem valSum_nil : valSum [] = 0 := rfl

theorem valSum_append (a b : List Call) : valSum (a ++ b) = valSum a + valSum b := by
  simp [valSum]

theorem valSum_single (c : Call) : valSum [c] = c.2.2 := by
  simp [valSum]

theorem Represents.bounds {t : SegmentTree} {cs : List Call} (h : Represents t cs) :
    0 ≤ t.left_bound ∧ t.left_bound ≤ t.right_bound := by
  cases h with
  | leaf lb rb ic cc cs h0 hle _ _ _ => exact ⟨h0, hle⟩
  | node lb rb ic cc l r cs h0 hlt _ _ _ _ _ _ _ _ => exact ⟨h0, le_of_lt hlt⟩

theorem Represents.new (lb rb : Int) (h0 : 0 ≤ lb) (hle : lb ≤ rb) :
    Represents (SegmentTree.new lb rb) [] := by
  unfold SegmentTree.new
  exact Represents.leaf lb rb 0 0 [] h0 hle rfl rfl rfl

/-- After `add_children_as_needed`, a node that is wider than one cell has two children
that represent the calls passed on to them. -/
theorem Represents.add_children {t : SegmentTree} {cs : List Call} (h : Represents t cs)
    (hlt : t.left_bound < t.right_bound) :
    ∃ lc rc, t.add_children_as_needed =
        SegmentTree.mk t.left_bound t.right_bound t.interval_count t.covered_cell_count
          (some lc) (some rc) ∧
      t.interval_count = valSum (cs.filter (coversNode t.left_bound t.right_bound)) ∧
      Represents lc (cs.filter (splitsNode t.left_bound t.right_bound)) ∧
      Represents rc (cs.filter (splitsNode t.left_bound t.right_bound)) ∧
      lc.left_bound = t.left_bound ∧
      lc.right_bound = (t.left_bound + t.right_bound).tdiv 2 ∧
      rc.left_bound = (t.left_bound + t.right_bound).tdiv 2 + 1 ∧
      rc.right_bound = t.right_bound := by
  cases h with
  | leaf lb rb ic cc cs h0 hle hic hcc hsp =>
    simp only [SegmentTree.left_bound_mk, SegmentTree.right_bound_mk] at hlt
    have hm := mid_bounds lb rb h0 hlt
    refine ⟨SegmentTree.new lb ((lb + rb).tdiv 2), SegmentTree.new ((lb + rb).tdiv 2 + 1) rb,
      rfl, hic, ?_, ?_, rfl, rfl, rfl, rfl⟩
    · simp only [SegmentTree.left_bound_mk, SegmentTree.right_bound_mk]
      rw [hsp]
      exact Represents.new _ _ h0 hm.1
    · simp only [SegmentTree.left_bound_mk, SegmentTree.right_bound_mk]
      rw [hsp]
      exact Represents.new _ _ (by omega) (by omega)
  | node lb rb ic cc l r cs h0 hlt2 hic hcc hl1 hl2 hr1 hr2 hl hr =>
    exact ⟨l, r, rfl, hic, hl, hr, hl1, hl2, hr1, hr2⟩

theorem filter_snoc_true {p : Call → Bool} (cs : List Call) {c : Call} (h : p c = true) :
    (cs ++ [c]).filter p = cs.filter p ++ [c] := by
  simp [List.filter_append, h]

theorem filter_snoc_false {p : Call → Bool} (cs : List Call) {c : Call} (h : p c = false) :
    (cs ++ [c]).filter p = cs.filter p := by
  simp [List.filter_append, h]

/-- Adding a call that neither is counted at the root nor splits it leaves the
representation as it is. -/
theorem Represents.snoc_miss {t : SegmentTree} {cs : List Call} (h : Represents t cs)
    (c : Call) (hc : coversNode t.left_bound t.right_bound c = false)
    (hs : splitsNode t.left_bound t.right_bound c = false) :
    Represents t (cs ++ [c]) := by
  cases h with
  | leaf lb rb ic cc cs h0 hle hic hcc hsp =>
    simp only [SegmentTree.left_bound_mk, SegmentTree.right_bound_mk] at hc hs
    refine Represents.leaf lb rb ic cc _ h0 hle ?_ hcc ?_
    · rw [filter_snoc_false cs hc]; exact hic
    · rw [filter_snoc_false cs hs]; exact hsp
  | node lb rb ic cc l r cs h0 hlt hic hcc hl1 hl2 hr1 hr2 hl hr =>
    simp only [SegmentTree.left_bound_mk, SegmentTree.right_bound_mk] at hc hs
    refine Represents.node lb rb ic cc l r _ h0 hlt ?_ hcc hl1 hl2 hr1 hr2 ?_ ?_
    · rw [filter_snoc_false cs hc]; exact hic
    · rw [filter_snoc_false cs hs]; exact hl
    · rw [filter_snoc_false cs hs]; exact hr

/-- Main preservation lemma: on a tree that represents the calls `cs`, `update` with fuel at
least the span of the root returns, and the result represents `cs` followed by the new
call. -/
theorem updateFuel_rep (fuel : Nat) : ∀ (t : SegmentTree) (cs : List Call) (l r v : Int),
    Represents t cs → t.right_bound - t.left_bound + 1 ≤ fuel →
    ∃ t1, SegmentTree.updateFuel fuel t l r v = some t1 ∧
      Represents t1 (cs ++ [(l, r, v)]) ∧
      t1.left_bound = t.left_bound ∧ t1.right_bound = t.right_bound := by
  induction fuel with
  | zero =>
    intro t cs l r v h hf
    have := h.bounds
    omega
  | succ n ih =>
    intro t cs l r v h hf
    have hb := h.bounds
    obtain ⟨lb, rb, ic, cc, lch, rch⟩ := t
    simp only [SegmentTree.left_bound_mk, SegmentTree.right_bound_mk] at hb hf
    simp only [SegmentTree.updateFuel]
    by_cases h1 : r < lb ∨ l > rb
    · rw [if_pos h1]
      refine ⟨_, rfl, ?_, rfl, rfl⟩
      apply h.snoc_miss
      · simp [coversNode, missesNode, SegmentTree.left_bound_mk, SegmentTree.right_bound_mk, h1]
      · simp [splitsNode, missesNode, SegmentTree.left_bound_mk, SegmentTree.right_bound_mk, h1]
    · rw [if_neg h1]
      by_cases h2 : l ≤ lb ∧ r ≥ rb
      · rw [if_pos h2]
        have hcov : coversNode lb rb (l, r, v) = true := by
          simp only [coversNode, missesNode, Bool.and_eq_true, Bool.not_eq_true',
            decide_eq_false_iff_not, decide_eq_true_eq]
          exact ⟨h1, h2⟩
        have hspl : splitsNode lb rb (l, r, v) = false := by
          simp [splitsNode, missesNode, h2]
        cases h with
        | leaf _ _ _ _ _ h0 hle hic hcc hsp =>
          refine ⟨SegmentTree.mk lb rb (ic + v) (if ic + v > 0 then rb - lb + 1 else 0)
            none none, ?_, ?_, rfl, rfl⟩
          · simp only [SegmentTree.recalculate_coverage]
            split <;> rfl
          · refine Represents.leaf lb rb _ _ _ h0 hle ?_ rfl ?_
            · rw [filter_snoc_true cs hcov, valSum_append, valSum_single, hic]
            · rw [filter_snoc_false cs hspl]; exact hsp
        | node _ _ _ _ lc rc _ h0 hlt hic hcc hl1 hl2 hr1 hr2 hl hr =>
          refine ⟨SegmentTree.mk lb rb (ic + v) (if ic + v > 0 then rb - lb + 1 else
            lc.covered_cell_count + rc.covered_cell_count) (some lc) (some rc), ?_, ?_,
            rfl, rfl⟩
          · simp only [SegmentTree.recalculate_coverage]
            split <;> rfl
          · refine Represents.node lb rb _ _ lc rc _ h0 hlt ?_ rfl hl1 hl2 hr1 hr2 ?_ ?_
            · rw [filter_snoc_true cs hcov, valSum_append, valSum_single, hic]
            · rw [filter_snoc_false cs hspl]; exact hl
            · rw [filter_snoc_false cs hspl]; exact hr
      · rw [if_neg h2]
        have hcov : coversNode lb rb (l, r, v) = false := by
          simp [coversNode, missesNode, h2]
        have hspl : splitsNode lb rb (l, r, v) = true := by
          simp only [splitsNode, missesNode, Bool.and_eq_true, Bool.not_eq_true',
            decide_eq_false_iff_not]
          exact ⟨h1, h2⟩
        have hlt : lb < rb := by omega
        obtain ⟨lc, rc, hadd, hic, hl, hr, hl1, hl2, hr1, hr2⟩ := h.add_children hlt
        simp only [SegmentTree.left_bound_mk, SegmentTree.right_bound_mk] at hl hr hl1 hl2 hr1 hr2
        simp only [SegmentTree.left_bound_mk, SegmentTree.right_bound_mk,
          SegmentTree.interval_count_mk, SegmentTree.covered_cell_count_mk] at hadd hic
        rw [hadd]
        have hm := mid_bounds lb rb hb.1 hlt
        obtain ⟨lc1, hlu, hlrep, hlb1, hlb2⟩ := ih lc _ l r v hl (by rw [hl1, hl2]; omega)
        obtain ⟨rc1, hru, hrrep, hrb1, hrb2⟩ := ih rc _ l r v hr (by rw [hr1, hr2]; omega)
        simp only [hlu, hru]
        refine ⟨SegmentTree.mk lb rb ic (if ic > 0 then rb - lb + 1 else
            lc1.covered_cell_count + rc1.covered_cell_count) (some lc1) (some rc1), ?_, ?_,
            rfl, rfl⟩
        · simp only [SegmentTree.recalculate_coverage]
          split <;> rfl
        · refine Represents.node lb rb _ _ lc1 rc1 _ hb.1 hlt ?_ rfl (hlb1.trans hl1)
            (hlb2.trans hl2) (hrb1.trans hr1) (hrb2.trans hr2) ?_ ?_
          · rw [filter_snoc_false cs hcov]; exact hic
          · rw [filter_snoc_true cs hspl]; exact hlrep
          · rw [filter_snoc_true cs hspl]; exact hrrep

theorem update_rep {t : SegmentTree} {cs : List Call} (h : Represents t cs) (l r v : Int) :
    ∃ t1, t.update l r v = some t1 ∧ Represents t1 (cs ++ [(l, r, v)]) ∧
      t1.left_bound = t.left_bound ∧ t1.right_bound = t.right_bound := by
  have hb := h.bounds
  exact updateFuel_rep _ t cs l r v h (by push_cast; omega)

theorem runUpdates_rep : ∀ (cs : List Call) (t : SegmentTree) (cs0 : List Call),
    Represents t cs0 →
    ∃ t1, runUpdates t cs = some t1 ∧ Represents t1 (cs0 ++ cs) ∧
      t1.left_bound = t.left_bound ∧ t1.right_bound = t.right_bound := by
  intro cs
  induction cs with
  | nil =>
    intro t cs0 h
    exact ⟨t, rfl, by simpa using h, rfl, rfl⟩
  | cons c cs ih =>
    intro t cs0 h
    obtain ⟨t1, hu, hrep, hb1, hb2⟩ := update_rep h c.1 c.2.1 c.2.2
    obtain ⟨t2, hu2, hrep2, hb3, hb4⟩ := ih t1 _ hrep
    refine ⟨t2, ?_, ?_, hb3.trans hb1, hb4.trans hb2⟩
    · simp only [runUpdates, hu]
      exact hu2
    · simpa using hrep2

/-- Any sequence of calls on the root of `SegmentTree(0, W - 1)` returns, and the tree it
leaves represents the sequence. -/
theorem runUpdates_new (W : Int) (hW : 1 ≤ W) (cs : List Call) :
    ∃ t, runUpdates (SegmentTree.new 0 (W - 1)) cs = some t ∧ Represents t cs ∧
      t.left_bound = 0 ∧ t.right_bound = W - 1 := by
  obtain ⟨t, h1, h2, h3, h4⟩ :=
    runUpdates_rep cs _ [] (Represents.new 0 (W - 1) (le_refl 0) (by omega))
  exact ⟨t, h1, by simpa using h2, h3, h4⟩

/-! ## Sums of calls and net counts -/

theorem valSum_cons (c : Call) (cs : List Call) : valSum (c :: cs) = c.2.2 + valSum cs := by
  simp [valSum]

theorem net_cons (c : Call) (cs : List Call) (l r : Int) :
    net (c :: cs) l r = (if (c.1, c.2.1) = (l, r) then c.2.2 else 0) + net cs l r := by
  unfold net
  by_cases h : c.1 = l ∧ c.2.1 = r
  · simp [List.filter_cons, h, valSum_cons]
  · have h2 : ¬ (c.1, c.2.1) = (l, r) := by
      intro he
      exact h (by simpa using he)
    simp [List.filter_cons, h, h2]

theorem net_append (a b : List Call) (l r : Int) : net (a ++ b) l r = net a l r + net b l r := by
  simp [net, List.filter_append, valSum_append]

theorem net_nil (l r : Int) : net [] l r = 0 := rfl

/-- Summing the net counts over a set of intervals is summing the calls made for them. -/
theorem sum_net_eq (S : Finset (Int × Int)) (cs : List Call) :
    ∑ I ∈ S, net cs I.1 I.2 = valSum (cs.filter (fun c => decide ((c.1, c.2.1) ∈ S))) := by
  induction cs with
  | nil => simp [net_nil, valSum_nil]
  | cons c cs ih =>
    simp only [net_cons, Finset.sum_add_distrib, ih, Finset.sum_ite_eq]
    by_cases h : (c.1, c.2.1) ∈ S
    · simp [List.filter_cons, h, valSum_cons]
    · simp [List.filter_cons, h]

/-- The calls selected by a predicate on intervals sum to the net counts of the selected
intervals. -/
theorem valSum_filter_eq_sum (P : Call → Bool) (hP : ∀ c, P c = P (c.1, c.2.1, 0))
    (cs : List Call) :
    valSum (cs.filter P) =
      ∑ I ∈ ((cs.map (fun c => (c.1, c.2.1))).toFinset.filter (fun I => P (I.1, I.2, 0) = true)),
        net cs I.1 I.2 := by
  rw [sum_net_eq]
  congr 1
  apply List.filter_congr
  intro c hc
  have hmem : (c.1, c.2.1) ∈ (cs.map (fun c => (c.1, c.2.1))).toFinset := by
    simp only [List.mem_toFinset, List.mem_map]
    exact ⟨c, hc, rfl⟩
  rw [hP c]
  by_cases hp : P (c.1, c.2.1, 0) = true
  · simp [hp, hmem]
  · simp [hp]

theorem valSum_filter_nonneg (P : Call → Bool) (hP : ∀ c, P c = P (c.1, c.2.1, 0))
    (cs : List Call) (hn : ∀ l r, 0 ≤ net cs l r) : 0 ≤ valSum (cs.filter P) := by
  rw [valSum_filter_eq_sum P hP]
  exact Finset.sum_nonneg (fun I _ => hn I.1 I.2)

theorem valSum_filter_pos_iff (P : Call → Bool) (hP : ∀ c, P c = P (c.1, c.2.1, 0))
    (cs : List Call) (hn : ∀ l r, 0 ≤ net cs l r) :
    0 < valSum (cs.filter P) ↔ ∃ c ∈ cs, P c = true ∧ 0 < net cs c.1 c.2.1 := by
  rw [valSum_filter_eq_sum P hP]
  constructor
  · intro hpos
    by_contra hcon
    have hle : ∑ I ∈ ((cs.map (fun c => (c.1, c.2.1))).toFinset.filter
        (fun I => P (I.1, I.2, 0) = true)), net cs I.1 I.2 ≤ 0 := by
      apply Finset.sum_nonpos
      intro I hI
      by_contra hgt
      apply hcon
      simp only [Finset.mem_filter, List.mem_toFinset, List.mem_map] at hI
      obtain ⟨⟨c, hc, hcI⟩, hPI⟩ := hI
      have h1 : c.1 = I.1 := congrArg Prod.fst hcI
      have h2 : c.2.1 = I.2 := congrArg Prod.snd hcI
      refine ⟨c, hc, ?_, ?_⟩
      · rw [hP c, h1, h2]; exact hPI
      · rw [h1, h2]
        omega
    omega
  · rintro ⟨c, hc, hPc, hpos⟩
    have hmem : (c.1, c.2.1) ∈ ((cs.map (fun c => (c.1, c.2.1))).toFinset.filter
        (fun I => P (I.1, I.2, 0) = true)) := by
      simp only [Finset.mem_filter, List.mem_toFinset, List.mem_map]
      exact ⟨⟨c, hc, rfl⟩, by rw [← hP c]; exact hPc⟩
    have hle := Finset.single_le_sum (f := fun I : Int × Int => net cs I.1 I.2)
      (fun I _ => hn I.1 I.2) hmem
    simp only at hle
    omega

/-- Filtering the calls by a predicate on intervals keeps the net count of the selected
intervals and forgets the others. -/
theorem net_filter (P : Call → Bool) (hP : ∀ c, P c = P (c.1, c.2.1, 0)) (cs : List Call)
    (l r : Int) :
    net (cs.filter P) l r = if P (l, r, 0) = true then net cs l r else 0 := by
  unfold net
  rw [List.filter_filter]
  by_cases hp : P (l, r, 0) = true
  · rw [if_pos hp]
    congr 1
    apply List.filter_congr
    intro c _
    by_cases hc : c.1 = l ∧ c.2.1 = r
    · rw [hP c, hc.1, hc.2, hp]; simp [hc]
    · simp [hc]
  · rw [if_neg hp]
    have : cs.filter (fun c => decide (c.1 = l ∧ c.2.1 = r) && P c) = [] := by
      rw [List.filter_eq_nil_iff]
      intro c _
      by_cases hc : c.1 = l ∧ c.2.1 = r
      · rw [hP c, hc.1, hc.2]; simp [hp]
      · simp [hc]
    rw [this]
    rfl

theorem coversNode_iv (lb rb : Int) (c : Call) :
    coversNode lb rb c = coversNode lb rb (c.1, c.2.1, 0) := rfl

theorem splitsNode_iv (lb rb : Int) (c : Call) :
    splitsNode lb rb c = splitsNode lb rb (c.1, c.2.1, 0) := rfl

/-! ## Counting covered coordinates -/

theorem coveredCoords_congr (lb rb : Int) (cs cs1 : List Call)
    (h : ∀ p, lb ≤ p → p ≤ rb → (activeAt cs p ↔ activeAt cs1 p)) :
    coveredCoords lb rb cs = coveredCoords lb rb cs1 := by
  unfold coveredCoords
  congr 2
  apply Finset.filter_congr
  intro p hp
  rw [Finset.mem_Icc] at hp
  exact h p hp.1 hp.2

theorem coveredCoords_none (lb rb : Int) (cs : List Call)
    (h : ∀ p, lb ≤ p → p ≤ rb → ¬ activeAt cs p) : coveredCoords lb rb cs = 0 := by
  unfold coveredCoords
  rw [Finset.filter_false_of_mem]
  · simp
  · intro p hp
    rw [Finset.mem_Icc] at hp
    exact h p hp.1 hp.2

theorem coveredCoords_all (lb rb : Int) (cs : List Call) (hle : lb ≤ rb + 1)
    (h : ∀ p, lb ≤ p → p ≤ rb → activeAt cs p) : coveredCoords lb rb cs = rb - lb + 1 := by
  unfold coveredCoords
  rw [Finset.filter_true_of_mem]
  · rw [Int.card_Icc]
    omega
  · intro p hp
    rw [Finset.mem_Icc] at hp
    exact h p hp.1 hp.2

theorem coveredCoords_split (lb m rb : Int) (cs : List Call) :
    coveredCoords lb rb cs =
      coveredCoords lb (min m rb) cs + coveredCoords (max (m + 1) lb) rb cs := by
  unfold coveredCoords
  rw [← Nat.cast_add, ← Finset.card_union_of_disjoint, ← Finset.filter_union]
  · congr 2
    ext p
    simp only [Finset.mem_filter, Finset.mem_Icc, Finset.mem_union]
    constructor
    · rintro ⟨h1, h2⟩
      exact ⟨by omega, h2⟩
    · rintro ⟨h1, h2⟩
      exact ⟨by omega, h2⟩
  · apply Finset.disjoint_filter_filter
    rw [Finset.disjoint_left]
    intro p hp hq
    rw [Finset.mem_Icc] at hp hq
    omega

theorem coveredCoords_nonneg (lb rb : Int) (cs : List Call) : 0 ≤ coveredCoords lb rb cs := by
  unfold coveredCoords
  exact Int.natCast_nonneg _

theorem activeAt_nil (p : Int) : ¬ activeAt [] p := by
  rintro ⟨c, hc, _⟩
  simp at hc

/-- Below a node whose own count is not positive, the active intervals that matter are the
ones passed on to the children. -/
theorem activeAt_filter_splits (lb rb : Int) (cs : List Call) (hn : ∀ l r, 0 ≤ net cs l r)
    (hic : ¬ 0 < valSum (cs.filter (coversNode lb rb))) (p : Int) (h1 : lb ≤ p)
    (h2 : p ≤ rb) : activeAt cs p ↔ activeAt (cs.filter (splitsNode lb rb)) p := by
  constructor
  · rintro ⟨c, hc, hl, hr, hpos⟩
    have hnc : coversNode lb rb c = false := by
      by_contra hcov
      apply hic
      rw [valSum_filter_pos_iff _ (coversNode_iv lb rb) cs hn]
      exact ⟨c, hc, by simpa using hcov, hpos⟩
    have hs : splitsNode lb rb c = true := by
      simp only [coversNode, missesNode, Bool.and_eq_false_imp, Bool.not_eq_true',
        decide_eq_false_iff_not] at hnc
      simp only [splitsNode, missesNode, Bool.and_eq_true, Bool.not_eq_true',
        decide_eq_false_iff_not]
      have hm : ¬ (c.2.1 < lb ∨ c.1 > rb) := by omega
      constructor
      · exact hm
      · intro hcon
        have := hnc (by simpa using hm)
        simp only [decide_eq_false_iff_not] at this
        exact this hcon
    refine ⟨c, ?_, hl, hr, ?_⟩
    · rw [List.mem_filter]
      exact ⟨hc, hs⟩
    · rw [net_filter _ (splitsNode_iv lb rb), if_pos]
      · exact hpos
      · rw [← splitsNode_iv]; exact hs
  · rintro ⟨c, hc, hl, hr, hpos⟩
    rw [List.mem_filter] at hc
    rw [net_filter _ (splitsNode_iv lb rb), if_pos] at hpos
    · exact ⟨c, hc.1, hl, hr, hpos⟩
    · rw [← splitsNode_iv]; exact hc.2

theorem net_filter_nonneg (P : Call → Bool) (hP : ∀ c, P c = P (c.1, c.2.1, 0))
    (cs : List Call) (hn : ∀ l r, 0 ≤ net cs l r) (l r : Int) : 0 ≤ net (cs.filter P) l r := by
  rw [net_filter P hP]
  split
  · exact hn l r
  · exact le_refl 0

/-- A node whose own count is positive lies inside an active interval. -/
theorem activeAt_of_covered (lb rb : Int) (cs : List Call) (hn : ∀ l r, 0 ≤ net cs l r)
    (hic : 0 < valSum (cs.filter (coversNode lb rb))) (p : Int) (h1 : lb ≤ p)
    (h2 : p ≤ rb) : activeAt cs p := by
  rw [valSum_filter_pos_iff _ (coversNode_iv lb rb) cs hn] at hic
  obtain ⟨c, hc, hcov, hpos⟩ := hic
  simp only [coversNode, missesNode, Bool.and_eq_true, Bool.not_eq_true',
    decide_eq_false_iff_not, decide_eq_true_eq] at hcov
  exact ⟨c, hc, by omega, by omega, hpos⟩

/-- The semantic content of the representation: when no interval has a negative net count,
the covered count stored at the root of a tree is the number of coordinates of its span that
lie in an active interval. -/
theorem Represents.covered_eq {t : SegmentTree} {cs : List Call} (h : Represents t cs)
    (hn : ∀ l r, 0 ≤ net cs l r) :
    t.covered_cell_count = coveredCoords t.left_bound t.right_bound cs := by
  induction h with
  | leaf lb rb ic cc cs h0 hle hic hcc hsp =>
    simp only [SegmentTree.covered_cell_count_mk, SegmentTree.left_bound_mk,
      SegmentTree.right_bound_mk]
    rw [hcc]
    by_cases hp : ic > 0
    · rw [if_pos hp, coveredCoords_all lb rb cs (by omega)]
      exact activeAt_of_covered lb rb cs hn (by rw [← hic]; exact hp)
    · rw [if_neg hp, coveredCoords_none]
      intro p h1 h2 hact
      rw [activeAt_filter_splits lb rb cs hn (by rw [← hic]; exact hp) p h1 h2, hsp] at hact
      exact activeAt_nil p hact
  | node lb rb ic cc l r cs h0 hlt hic hcc hl1 hl2 hr1 hr2 hl hr ihl ihr =>
    simp only [SegmentTree.covered_cell_count_mk, SegmentTree.left_bound_mk,
      SegmentTree.right_bound_mk]
    rw [hcc]
    by_cases hp : ic > 0
    · rw [if_pos hp, coveredCoords_all lb rb cs (by omega)]
      exact activeAt_of_covered lb rb cs hn (by rw [← hic]; exact hp)
    · rw [if_neg hp]
      have hn1 := net_filter_nonneg _ (splitsNode_iv lb rb) cs hn
      rw [ihl hn1, ihr hn1, hl1, hl2, hr1, hr2]
      have hm := mid_bounds lb rb h0 hlt
      rw [coveredCoords_congr lb rb cs (cs.filter (splitsNode lb rb))
        (activeAt_filter_splits lb rb cs hn (by rw [← hic]; exact hp)),
        coveredCoords_split lb ((lb + rb).tdiv 2) rb]
      rw [min_eq_left (by omega), max_eq_left (by omega)]

/-! ## Well-formed call sequences -/

theorem BalancedCalls.init {cs : List Call} {c : Call} (h : BalancedCalls (cs ++ [c])) :
    BalancedCalls cs := by
  intro i hi hv
  have hi2 : i < (cs ++ [c]).length := by simp; omega
  have hg : (cs ++ [c])[i] = cs[i] := List.getElem_append_left hi
  have ht : (cs ++ [c]).take i = cs.take i := List.take_append_of_le_length (le_of_lt hi)
  have := h i hi2
  rw [hg, ht] at this
  exact this hv

theorem BalancedCalls.last {cs : List Call} {c : Call} (h : BalancedCalls (cs ++ [c]))
    (hv : c.2.2 = -1) : 0 < net cs c.1 c.2.1 := by
  have hi2 : cs.length < (cs ++ [c]).length := by simp
  have hg : (cs ++ [c])[cs.length] = c := by simp
  have ht : (cs ++ [c]).take cs.length = cs := by simp
  have := h cs.length hi2
  rw [hg, ht] at this
  exact this hv

/-- In a sequence of insertions and removals where each removal cancels an outstanding
insertion of the same interval, no interval has a negative net count. -/
theorem net_nonneg_of_balanced (cs : List Call)
    (hv : ∀ c ∈ cs, c.2.2 = 1 ∨ c.2.2 = -1) (hb : BalancedCalls cs) (l r : Int) :
    0 ≤ net cs l r := by
  induction cs using List.reverseRecOn with
  | nil => simp [net_nil]
  | append_singleton cs c ih =>
    have ih1 := ih (fun c1 hc1 => hv c1 (by simp [hc1])) hb.init
    rw [net_append]
    have hc : net [c] l r = if (c.1, c.2.1) = (l, r) then c.2.2 else 0 := by
      rw [net_cons, net_nil, add_zero]
    rw [hc]
    split
    · rename_i heq
      rcases hv c (by simp) with h1 | h1
      · omega
      · have := hb.last h1
        have e1 : c.1 = l := congrArg Prod.fst heq
        have e2 : c.2.1 = r := congrArg Prod.snd heq
        rw [e1, e2] at this
        omega
    · omega

theorem toInt32_of_range (z : Int) (h1 : -2147483648 ≤ z) (h2 : z < 2147483648) :
    toInt32 z = z := by
  unfold toInt32
  omega

theorem keyInterval_eventKey (x y : Int) :
    keyInterval (H.eventKey x y) = (H.eventLeft x y, H.eventRight x y) := by
  unfold keyInterval H.eventKey H.eventLeft H.eventRight toInt32
  simp only [Prod.mk.injEq]
  constructor <;> omega

theorem net_single (c : Call) (l r : Int) :
    net [c] l r = if (c.1, c.2.1) = (l, r) then c.2.2 else 0 := by
  rw [net_cons, net_nil, add_zero]

theorem net_pos_mem (cs : List Call) (l r : Int) (h : 0 < net cs l r) :
    ∃ c ∈ cs, c.1 = l ∧ c.2.1 = r := by
  by_contra hcon
  have : cs.filter (fun c => decide (c.1 = l ∧ c.2.1 = r)) = [] := by
    rw [List.filter_eq_nil_iff]
    intro c hc hd
    exact hcon ⟨c, hc, by simpa using hd⟩
  unfold net at h
  rw [this, valSum_nil] at h
  exact lt_irrefl 0 h

/-- In every state of the loop, the covered count of the root is the number of coordinates
covered by the interval of an active mountain. -/
theorem MainInv.covered {W : Int} {s : H.MainState} {cs : List Call} (h : MainInv W s cs) :
    s.T.covered_cell_count = coveredByMountains W s.mountains := by
  obtain ⟨hrep, hl, hr, hnet, _⟩ := h
  have hn : ∀ l r, 0 ≤ net cs l r := by
    intro l r
    rw [hnet]
    exact Int.natCast_nonneg _
  rw [hrep.covered_eq hn, hl, hr]
  unfold coveredCoords coveredByMountains
  congr 2
  apply Finset.filter_congr
  intro p _
  constructor
  · rintro ⟨c, _, h1, h2, hpos⟩
    rw [hnet] at hpos
    have hcard : 0 < (s.mountains.filter (fun m => keyInterval m = (c.1, c.2.1))).card := by
      exact_mod_cast hpos
    obtain ⟨m, hm⟩ := Finset.card_pos.mp hcard
    rw [Finset.mem_filter] at hm
    refine ⟨m, hm.1, ?_, ?_⟩
    · rw [hm.2]; exact h1
    · rw [hm.2]; exact h2
  · rintro ⟨m, hm, h1, h2⟩
    have hpos : 0 < net cs (keyInterval m).1 (keyInterval m).2 := by
      rw [hnet]
      have : 0 < (s.mountains.filter
          (fun m1 => keyInterval m1 = ((keyInterval m).1, (keyInterval m).2))).card := by
        apply Finset.card_pos.mpr
        exact ⟨m, by rw [Finset.mem_filter]; exact ⟨hm, rfl⟩⟩
      exact_mod_cast this
    obtain ⟨c, hc, e1, e2⟩ := net_pos_mem cs _ _ hpos
    refine ⟨c, hc, ?_, ?_, ?_⟩
    · rw [e1]; exact h1
    · rw [e2]; exact h2
    · rw [e1, e2]; exact hpos

theorem MainInv.initial (W : Int) (hW : 1 ≤ W) : MainInv W (H.initial W) [] := by
  refine ⟨Represents.new 0 (W - 1) (le_refl 0) (by omega), rfl, rfl, ?_, ?_⟩
  · intro l r
    simp [H.initial, net_nil]
  · intro c hc
    simp at hc

/-- One iteration of the loop returns, keeps the invariant and toggles the key of the event
in the set. -/
theorem processEvent_inv {W : Int} {s : H.MainState} {cs : List Call} (h : MainInv W s cs)
    (e : Int × Int) :
    ∃ s1 cs1, H.processEvent s e = some s1 ∧ MainInv W s1 cs1 ∧
      s1.mountains = toggle s.mountains (H.eventKey e.1 e.2) ∧
      cs1.length = cs.length + 1 := by
  obtain ⟨hrep, hl, hr, hnet, hunit⟩ := h
  have hunit1 : ∀ d : Int, d = 1 ∨ d = -1 →
      ∀ c ∈ cs ++ [(H.eventLeft e.1 e.2, H.eventRight e.1 e.2, d)], c.2.2 = 1 ∨ c.2.2 = -1 := by
    intro d hd c hc
    rw [List.mem_append, List.mem_singleton] at hc
    rcases hc with hc | hc
    · exact hunit c hc
    · rw [hc]; exact hd
  have hki := keyInterval_eventKey e.1 e.2
  by_cases hk : H.eventKey e.1 e.2 ∈ s.mountains
  · obtain ⟨T1, hu, hrep1, hb1, hb2⟩ :=
      update_rep hrep (H.eventLeft e.1 e.2) (H.eventRight e.1 e.2) (-1)
    refine ⟨⟨T1, s.mountains.erase (H.eventKey e.1 e.2)⟩, _, ?_,
      ⟨hrep1, hb1.trans hl, hb2.trans hr, ?_, hunit1 (-1) (Or.inr rfl)⟩, ?_, by simp⟩
    · simp only [H.processEvent, if_pos hk, hu]
    · intro l r
      rw [net_append, net_single, hnet, Finset.filter_erase]
      by_cases hlr : (H.eventLeft e.1 e.2, H.eventRight e.1 e.2) = (l, r)
      · have hmem : H.eventKey e.1 e.2 ∈
            s.mountains.filter (fun m => keyInterval m = (l, r)) := by
          rw [Finset.mem_filter]
          exact ⟨hk, by rw [hki]; exact hlr⟩
        have hpos : 1 ≤ (s.mountains.filter (fun m => keyInterval m = (l, r))).card :=
          Finset.card_pos.mpr ⟨_, hmem⟩
        rw [if_pos hlr, Finset.card_erase_of_mem hmem, Nat.cast_sub hpos]
        push_cast
        ring
      · have hmem : H.eventKey e.1 e.2 ∉
            s.mountains.filter (fun m => keyInterval m = (l, r)) := by
          rw [Finset.mem_filter]
          rintro ⟨_, h2⟩
          exact hlr (by rw [← hki]; exact h2)
        rw [if_neg hlr, Finset.erase_eq_of_not_mem hmem]
        omega
    · simp only [toggle, if_pos hk]
  · obtain ⟨T1, hu, hrep1, hb1, hb2⟩ :=
      update_rep hrep (H.eventLeft e.1 e.2) (H.eventRight e.1 e.2) 1
    refine ⟨⟨T1, insert (H.eventKey e.1 e.2) s.mountains⟩, _, ?_,
      ⟨hrep1, hb1.trans hl, hb2.trans hr, ?_, hunit1 1 (Or.inl rfl)⟩, ?_, by simp⟩
    · simp only [H.processEvent, if_neg hk, hu]
    · intro l r
      rw [net_append, net_single, hnet, Finset.filter_insert]
      have hmem : H.eventKey e.1 e.2 ∉
          s.mountains.filter (fun m => keyInterval m = (l, r)) := by
        rw [Finset.mem_filter]
        rintro ⟨h1, _⟩
        exact hk h1
      by_cases hlr : (H.eventLeft e.1 e.2, H.eventRight e.1 e.2) = (l, r)
      · rw [if_pos hlr, if_pos (by rw [hki]; exact hlr), Finset.card_insert_of_not_mem hmem]
        push_cast
        ring
      · rw [if_neg hlr, if_neg (by rw [hki]; exact hlr)]
        omega
    · simp only [toggle, if_neg hk]

theorem mountainsAfter_cons (M : Finset (Int × Int)) (e : Int × Int) (es : List (Int × Int)) :
    mountainsAfter M (e :: es) = mountainsAfter (toggle M (H.eventKey e.1 e.2)) es := rfl

theorem mountainsAfter_nil (M : Finset (Int × Int)) : mountainsAfter M [] = M := rfl

/-- The loop of `main` returns on every list of events; it ends in a state that satisfies the
invariant, and the value read by the output statement of iteration `k` is the number of
coordinates covered by the mountains that are active after the first `k + 1` events. -/
theorem mainLoop_inv (W : Int) : ∀ (es : List (Int × Int)) (s : H.MainState) (cs : List Call),
    MainInv W s cs →
    ∃ s2 outs cs2, H.mainLoop s es = some (s2, outs) ∧ MainInv W s2 cs2 ∧
      s2.mountains = mountainsAfter s.mountains es ∧ outs.length = es.length ∧
      cs2.length = cs.length + es.length ∧
      ∀ k, k < es.length →
        outs[k]? = some (coveredByMountains W (mountainsAfter s.mountains (es.take (k + 1)))) := by
  intro es
  induction es with
  | nil =>
    intro s cs h
    exact ⟨s, [], cs, rfl, h, rfl, rfl, rfl, fun k hk => absurd hk (by simp)⟩
  | cons e es ih =>
    intro s cs h
    obtain ⟨s1, cs1, hp, hinv1, hm1, hlen1⟩ := processEvent_inv h e
    obtain ⟨s2, outs, cs2, hloop, hinv2, hm2, hlen, hlen2, hout⟩ := ih s1 cs1 hinv1
    refine ⟨s2, s1.T.covered_cell_count :: outs, cs2, ?_, hinv2, ?_, ?_, ?_, ?_⟩
    · simp only [H.mainLoop, hp, hloop]
    · rw [hm2, hm1, mountainsAfter_cons]
    · simp [hlen]
    · rw [hlen2, hlen1, List.length_cons]
      omega
    · intro k hk
      cases k with
      | zero =>
        simp only [List.getElem?_cons_zero, zero_add, List.take_succ_cons, List.take_zero,
          mountainsAfter_cons, mountainsAfter_nil]
        rw [hinv1.covered, hm1]
      | succ k =>
        simp only [List.getElem?_cons_succ, List.take_succ_cons, mountainsAfter_cons]
        rw [hout k (by simpa using hk), hm1]

theorem mem_toggle (M : Finset (Int × Int)) (k m : Int × Int) :
    m ∈ toggle M k ↔ (m ∈ M ∧ m ≠ k) ∨ (m ∉ M ∧ m = k) := by
  unfold toggle
  by_cases hk : k ∈ M
  · rw [if_pos hk, Finset.mem_erase]
    constructor
    · rintro ⟨h1, h2⟩
      exact Or.inl ⟨h2, h1⟩
    · rintro (⟨h1, h2⟩ | ⟨h1, h2⟩)
      · exact ⟨h2, h1⟩
      · exact absurd (h2 ▸ hk) h1
  · rw [if_neg hk, Finset.mem_insert]
    constructor
    · rintro (h1 | h1)
      · exact Or.inr ⟨by rw [h1]; exact hk, h1⟩
      · exact Or.inl ⟨h1, fun h2 => hk (h2 ▸ h1)⟩
    · rintro (⟨h1, _⟩ | ⟨_, h2⟩)
      · exact Or.inr h1
      · exact Or.inl h2

/-- A key is in the set after the events `es` exactly when its membership has been flipped an
odd number of times. -/
theorem mem_mountainsAfter : ∀ (es : List (Int × Int)) (M : Finset (Int × Int))
    (m : Int × Int),
    m ∈ mountainsAfter M es ↔
      ((if m ∈ M then 1 else 0) + (es.map (fun e => H.eventKey e.1 e.2)).count m) % 2 = 1 := by
  intro es
  induction es with
  | nil =>
    intro M m
    by_cases h : m ∈ M <;> simp [mountainsAfter_nil, h]
  | cons e es ih =>
    intro M m
    rw [mountainsAfter_cons, ih, List.map_cons, List.count_cons]
    by_cases h1 : m ∈ M <;> by_cases h2 : m = H.eventKey e.1 e.2
    · have h3 : m ∉ toggle M (H.eventKey e.1 e.2) := by
        rw [mem_toggle]; tauto
      have hb : (H.eventKey e.1 e.2 == m) = true := by simp [h2]
      rw [if_neg h3, if_pos h1, if_pos hb]
      omega
    · have h3 : m ∈ toggle M (H.eventKey e.1 e.2) := by
        rw [mem_toggle]; tauto
      have hb : ¬ (H.eventKey e.1 e.2 == m) = true := by
        simpa using fun h => h2 h.symm
      rw [if_pos h3, if_pos h1, if_neg hb]
      omega
    · have h3 : m ∈ toggle M (H.eventKey e.1 e.2) := by
        rw [mem_toggle]; tauto
      have hb : (H.eventKey e.1 e.2 == m) = true := by simp [h2]
      rw [if_pos h3, if_neg h1, if_pos hb]
      omega
    · have h3 : m ∉ toggle M (H.eventKey e.1 e.2) := by
        rw [mem_toggle]; tauto
      have hb : ¬ (H.eventKey e.1 e.2 == m) = true := by
        simpa using fun h => h2 h.symm
      rw [if_neg h3, if_neg h1, if_neg hb]
      omega

theorem EventsInRange.key {W : Int} (hW : W ≤ 1000000000) {es : List (Int × Int)}
    (hr : EventsInRange W es) {e : Int × Int} (he : e ∈ es) :
    H.eventKey e.1 e.2 = e ∧ keyInterval e = (e.1 - e.2, e.1 + e.2 - 1) := by
  obtain ⟨h1, h2, h3⟩ := hr e he
  unfold H.eventKey keyInterval
  rw [toInt32_of_range e.1 (by omega) (by omega), toInt32_of_range e.2 (by omega) (by omega),
    toInt32_of_range (e.1 - e.2) (by omega) (by omega),
    toInt32_of_range (e.1 + e.2 - 1) (by omega) (by omega)]
  exact ⟨rfl, rfl⟩

/-- For events in range, the active mountains are the pairs that occurred an odd number of
times, and the coordinates they cover are counted by `coveredByOdd`. -/
theorem coveredByMountains_eq_odd (W : Int) (hW : W ≤ 1000000000) (es : List (Int × Int))
    (hr : EventsInRange W es) :
    coveredByMountains W (mountainsAfter ∅ es) = coveredByOdd W es := by
  have hmap : es.map (fun e => H.eventKey e.1 e.2) = es := by
    conv_rhs => rw [← List.map_id es]
    apply List.map_congr_left
    intro e he
    exact (hr.key hW he).1
  have hmem : ∀ m, m ∈ mountainsAfter ∅ es ↔ es.count m % 2 = 1 := by
    intro m
    rw [mem_mountainsAfter, hmap]
    simp
  unfold coveredByMountains coveredByOdd
  congr 2
  apply Finset.filter_congr
  intro p _
  constructor
  · rintro ⟨m, hm, h1, h2⟩
    rw [hmem] at hm
    have hin : m ∈ es := by
      apply List.count_pos_iff.mp
      omega
    rw [(hr.key hW hin).2] at h1 h2
    exact ⟨m, hin, hm, h1, h2⟩
  · rintro ⟨e, he, hodd, h1, h2⟩
    refine ⟨e, (hmem e).mpr hodd, ?_, ?_⟩
    · rw [(hr.key hW he).2]; exact h1
    · rw [(hr.key hW he).2]; exact h2

theorem EventsInRange.take {W : Int} {es : List (Int × Int)} (hr : EventsInRange W es)
    (k : Nat) : EventsInRange W (es.take k) :=
  fun e he => hr e (List.mem_of_mem_take he)

/-- Claim C2 (event-loop correctness). For every `W` with `1 ≤ W ≤ 10^9` and events
`(x_i, y_i)` with `y_i ≥ 0`, `0 ≤ x_i - y_i` and `x_i + y_i - 1 ≤ W - 1`, the loop of `main`
returns, it reads one value per event, and the value read after the `k`-th event (index
`k - 1`) is the number of integers `c` in `[0, W - 1]` with `x - y ≤ c ≤ x + y - 1` for some
pair `(x, y)` occurring an odd number of times among the first `k` events. -/
theorem event_loop_correct (W : Int) (h1 : 1 ≤ W) (h2 : W ≤ 1000000000)
    (es : List (Int × Int)) (hr : EventsInRange W es) :
    ∃ s outs, H.main W es = some (s, outs) ∧ outs.length = es.length ∧
      ∀ k, k < es.length → outs[k]? = some (coveredByOdd W (es.take (k + 1))) := by
  obtain ⟨s2, outs, cs2, hloop, _, _, hlen, _, hout⟩ :=
    mainLoop_inv W es (H.initial W) [] (MainInv.initial W h1)
  refine ⟨s2, outs, hloop, hlen, ?_⟩
  intro k hk
  rw [hout k hk]
  have : (H.initial W).mountains = ∅ := rfl
  rw [this, coveredByMountains_eq_odd W h2 _ (hr.take (k + 1))]

theorem event_loop_correct_witness :
    (1 : Int) ≤ 10 ∧ (10 : Int) ≤ 1000000000 ∧
      EventsInRange 10 [(5, 3), (2, 1), (5, 3), (7, 0), (2, 2)] ∧
      ∃ s outs, H.main 10 [(5, 3), (2, 1), (5, 3), (7, 0), (2, 2)] = some (s, outs) ∧
        outs.length = [((5 : Int), (3 : Int)), (2, 1), (5, 3), (7, 0), (2, 2)].length ∧
        ∀ k, k < [((5 : Int), (3 : Int)), (2, 1), (5, 3), (7, 0), (2, 2)].length →
          outs[k]? = some (coveredByOdd 10
            ([((5 : Int), (3 : Int)), (2, 1), (5, 3), (7, 0), (2, 2)].take (k + 1))) :=
  ⟨by decide, by decide, by decide,
    event_loop_correct 10 (by decide) (by decide) _ (by decide)⟩

/-! ## Toggling an event twice -/

theorem toggle_toggle (M : Finset (Int × Int)) (k : Int × Int) : toggle (toggle M k) k = M := by
  ext m
  rw [mem_toggle, mem_toggle]
  by_cases h1 : m ∈ M <;> by_cases h2 : m = k <;> simp [h1, h2]

theorem update_emptySpanTree (W : Int) (hW : W ≤ 0) (ic l r v : Int) :
    (emptySpanTree W ic).update l r v =
      some (emptySpanTree W (ic + if coversNode 0 (W - 1) (l, r, v) = true then v else 0)) := by
  unfold emptySpanTree SegmentTree.update
  simp only [SegmentTree.updateFuel]
  by_cases h1 : r < 0 ∨ l > W - 1
  · have hc : coversNode 0 (W - 1) (l, r, v) = false := by
      simp [coversNode, missesNode, h1]
    rw [if_pos h1, hc]
    simp
  · rw [if_neg h1]
    have h2 : l ≤ 0 ∧ r ≥ W - 1 := by omega
    have hc : coversNode 0 (W - 1) (l, r, v) = true := by
      simp only [coversNode, missesNode, Bool.and_eq_true, Bool.not_eq_true',
        decide_eq_false_iff_not, decide_eq_true_eq]
      exact ⟨h1, h2⟩
    rw [if_pos h2, hc]
    simp only [SegmentTree.recalculate_coverage, if_true]
    split <;> rfl

theorem processEvent_twice_emptySpan (W : Int) (hW : W ≤ 0) (ic : Int)
    (M : Finset (Int × Int)) (e : Int × Int) :
    ∃ ic1, H.processEvent ⟨emptySpanTree W ic, M⟩ e =
        some ⟨emptySpanTree W ic1, toggle M (H.eventKey e.1 e.2)⟩ ∧
      H.processEvent ⟨emptySpanTree W ic1, toggle M (H.eventKey e.1 e.2)⟩ e =
        some ⟨emptySpanTree W ic, M⟩ := by
  by_cases hk : H.eventKey e.1 e.2 ∈ M
  · have hk2 : H.eventKey e.1 e.2 ∉ M.erase (H.eventKey e.1 e.2) := Finset.not_mem_erase _ _
    refine ⟨ic + (if coversNode 0 (W - 1) (H.eventLeft e.1 e.2, H.eventRight e.1 e.2, -1) = true
      then -1 else 0), ?_, ?_⟩
    · simp only [H.processEvent, if_pos hk, update_emptySpanTree W hW, toggle]
    · simp only [H.processEvent, toggle, if_pos hk, if_neg hk2, update_emptySpanTree W hW,
        Finset.insert_erase hk]
      congr 3
      have hcc : coversNode 0 (W - 1) (H.eventLeft e.1 e.2, H.eventRight e.1 e.2, 1) =
          coversNode 0 (W - 1) (H.eventLeft e.1 e.2, H.eventRight e.1 e.2, -1) := rfl
      rw [hcc]
      split <;> omega
  · have hk2 : H.eventKey e.1 e.2 ∈ insert (H.eventKey e.1 e.2) M := Finset.mem_insert_self _ _
    refine ⟨ic + (if coversNode 0 (W - 1) (H.eventLeft e.1 e.2, H.eventRight e.1 e.2, 1) = true
      then 1 else 0), ?_, ?_⟩
    · simp only [H.processEvent, if_neg hk, update_emptySpanTree W hW, toggle]
    · simp only [H.processEvent, toggle, if_neg hk, if_pos hk2, update_emptySpanTree W hW,
        Finset.erase_insert hk]
      congr 3
      have hcc : coversNode 0 (W - 1) (H.eventLeft e.1 e.2, H.eventRight e.1 e.2, -1) =
          coversNode 0 (W - 1) (H.eventLeft e.1 e.2, H.eventRight e.1 e.2, 1) := rfl
      rw [hcc]
      split <;> omega

theorem processEvent_emptySpan (W : Int) (hW : W ≤ 0) (ic : Int) (M : Finset (Int × Int))
    (e : Int × Int) :
    ∃ ic1 M1, H.processEvent ⟨emptySpanTree W ic, M⟩ e = some ⟨emptySpanTree W ic1, M1⟩ ∧
      ic - 1 ≤ ic1 ∧ ic1 ≤ ic + 1 := by
  by_cases hk : H.eventKey e.1 e.2 ∈ M
  · refine ⟨ic + (if coversNode 0 (W - 1) (H.eventLeft e.1 e.2, H.eventRight e.1 e.2, -1) = true
      then -1 else 0), M.erase (H.eventKey e.1 e.2), ?_, ?_, ?_⟩
    · simp only [H.processEvent, if_pos hk, update_emptySpanTree W hW]
    · split <;> omega
    · split <;> omega
  · refine ⟨ic + (if coversNode 0 (W - 1) (H.eventLeft e.1 e.2, H.eventRight e.1 e.2, 1) = true
      then 1 else 0), insert (H.eventKey e.1 e.2) M, ?_, ?_, ?_⟩
    · simp only [H.processEvent, if_neg hk, update_emptySpanTree W hW]
    · split <;> omega
    · split <;> omega

theorem mainLoop_emptySpan_bounded (W : Int) (hW : W ≤ 0) : ∀ (es : List (Int × Int))
    (ic : Int) (M : Finset (Int × Int)),
    ∃ ic1 M1 outs, H.mainLoop ⟨emptySpanTree W ic, M⟩ es =
        some (⟨emptySpanTree W ic1, M1⟩, outs) ∧
      ic - es.length ≤ ic1 ∧ ic1 ≤ ic + es.length := by
  intro es
  induction es with
  | nil =>
    intro ic M
    exact ⟨ic, M, [], rfl, by simp, by simp⟩
  | cons e es ih =>
    intro ic M
    obtain ⟨ic1, M1, hp, h1, h2⟩ := processEvent_emptySpan W hW ic M e
    obtain ⟨ic2, M2, outs, hl, h3, h4⟩ := ih ic1 M1
    refine ⟨ic2, M2, (emptySpanTree W ic1).covered_cell_count :: outs,
      by simp only [H.mainLoop, hp, hl], ?_, ?_⟩
    · rw [List.length_cons]; push_cast; omega
    · rw [List.length_cons]; push_cast; omega

/-- Claim C3 (toggle idempotence). In every state that the loop of `main` reaches (whatever
the width and the events were, in range or not), processing an event `(x, y)` twice in a row,
whether or not its key is in the active set, returns both times, leaves the root's
`covered_cell_count` at the value it had before the first of the two events, and leaves the
active mountain set as it was. -/
theorem toggle_idempotence (W : Int) (es : List (Int × Int)) (e : Int × Int) :
    ∃ s outs, H.main W es = some (s, outs) ∧
      ∃ s1 s2, H.processEvent s e = some s1 ∧ H.processEvent s1 e = some s2 ∧
        s2.T.covered_cell_count = s.T.covered_cell_count ∧ s2.mountains = s.mountains := by
  by_cases hW : 1 ≤ W
  · obtain ⟨s, outs, cs, hloop, hinv, _, _, _, _⟩ :=
      mainLoop_inv W es (H.initial W) [] (MainInv.initial W hW)
    obtain ⟨s1, cs1, hp1, hinv1, hm1, _⟩ := processEvent_inv hinv e
    obtain ⟨s2, cs2, hp2, hinv2, hm2, _⟩ := processEvent_inv hinv1 e
    have hm : s2.mountains = s.mountains := by rw [hm2, hm1, toggle_toggle]
    refine ⟨s, outs, hloop, s1, s2, hp1, hp2, ?_, hm⟩
    rw [hinv2.covered, hinv.covered, hm]
  · have hW0 : W ≤ 0 := by omega
    have hinit : H.initial W = ⟨emptySpanTree W 0, ∅⟩ := rfl
    obtain ⟨ic1, M1, outs, hloop, _, _⟩ := mainLoop_emptySpan_bounded W hW0 es 0 ∅
    obtain ⟨ic2, hp1, hp2⟩ := processEvent_twice_emptySpan W hW0 ic1 M1 e
    exact ⟨_, outs, by rw [H.main, hinit]; exact hloop, _, _, hp1, hp2, rfl, rfl⟩

/-! ## Every node of a reachable tree -/

theorem SegmentTree.nodes_leaf (lb rb ic cc : Int) :
    (SegmentTree.mk lb rb ic cc none none).nodes = [SegmentTree.mk lb rb ic cc none none] := by
  simp [SegmentTree.nodes]

theorem SegmentTree.nodes_node (lb rb ic cc : Int) (l r : SegmentTree) :
    (SegmentTree.mk lb rb ic cc (some l) (some r)).nodes =
      SegmentTree.mk lb rb ic cc (some l) (some r) :: (l.nodes ++ r.nodes) := by
  simp [SegmentTree.nodes]

/-- Every node of a tree that represents a list of calls represents a list of calls itself
(the calls that reached it). -/
theorem Represents.of_mem_nodes {t : SegmentTree} {cs : List Call} (h : Represents t cs) :
    ∀ n ∈ t.nodes, ∃ cs1, Represents n cs1 ∧ cs1.Sublist cs := by
  induction h with
  | leaf lb rb ic cc cs h0 hle hic hcc hsp =>
    intro n hn
    rw [SegmentTree.nodes_leaf, List.mem_singleton] at hn
    rw [hn]
    exact ⟨cs, Represents.leaf lb rb ic cc cs h0 hle hic hcc hsp, List.Sublist.refl _⟩
  | node lb rb ic cc l r cs h0 hlt hic hcc hl1 hl2 hr1 hr2 hl hr ihl ihr =>
    intro n hn
    rw [SegmentTree.nodes_node, List.mem_cons, List.mem_append] at hn
    have hlen : (cs.filter (splitsNode lb rb)).Sublist cs := List.filter_sublist _
    rcases hn with hn | hn | hn
    · rw [hn]
      exact ⟨cs, Represents.node lb rb ic cc l r cs h0 hlt hic hcc hl1 hl2 hr1 hr2 hl hr,
        List.Sublist.refl _⟩
    · obtain ⟨cs1, h1, h2⟩ := ihl n hn
      exact ⟨cs1, h1, h2.trans hlen⟩
    · obtain ⟨cs1, h1, h2⟩ := ihr n hn
      exact ⟨cs1, h1, h2.trans hlen⟩

theorem Represents.covered_bounds {t : SegmentTree} {cs : List Call} (h : Represents t cs) :
    0 ≤ t.covered_cell_count ∧ t.covered_cell_count ≤ t.right_bound - t.left_bound + 1 := by
  induction h with
  | leaf lb rb ic cc cs h0 hle hic hcc hsp =>
    simp only [SegmentTree.covered_cell_count_mk, SegmentTree.left_bound_mk,
      SegmentTree.right_bound_mk]
    rw [hcc]
    split <;> omega
  | node lb rb ic cc l r cs h0 hlt hic hcc hl1 hl2 hr1 hr2 hl hr ihl ihr =>
    simp only [SegmentTree.covered_cell_count_mk, SegmentTree.left_bound_mk,
      SegmentTree.right_bound_mk]
    rw [hl1, hl2] at ihl
    rw [hr1, hr2] at ihr
    rw [hcc]
    split <;> omega

/-- On the root of `SegmentTree(0, W - 1)`, a sequence of calls in which no interval ends
with a negative net count leaves the number of covered coordinates in the root. -/
theorem runUpdates_covered (W : Int) (hW : 1 ≤ W) (cs : List Call)
    (hn : ∀ l r, 0 ≤ net cs l r) :
    ∃ t, runUpdates (SegmentTree.new 0 (W - 1)) cs = some t ∧
      t.covered_cell_count = coveredCoords 0 (W - 1) cs := by
  obtain ⟨t, hrun, hrep, h1, h2⟩ := runUpdates_new W hW cs
  exact ⟨t, hrun, by rw [hrep.covered_eq hn, h1, h2]⟩

theorem coveredCoords_eq_card (lb rb : Int) (cs : List Call) (S : Finset Int)
    (hS : ∀ p ∈ S, lb ≤ p ∧ p ≤ rb) (h : ∀ p, activeAt cs p ↔ p ∈ S) :
    coveredCoords lb rb cs = (S.card : Int) := by
  unfold coveredCoords
  congr 2
  ext p
  rw [Finset.mem_filter, Finset.mem_Icc, h]
  constructor
  · exact fun hp => hp.2
  · exact fun hp => ⟨hS p hp, hp⟩

/-- Coordinates covered when one interval `[l, r]` is active. -/
theorem coveredCoords_one (lb rb l r : Int) (cs : List Call) (h1 : lb ≤ l) (h2 : l ≤ r)
    (h3 : r ≤ rb) (h : ∀ p, activeAt cs p ↔ l ≤ p ∧ p ≤ r) :
    coveredCoords lb rb cs = r - l + 1 := by
  rw [coveredCoords_eq_card lb rb cs (Finset.Icc l r), Int.card_Icc]
  · omega
  · intro p hp
    rw [Finset.mem_Icc] at hp
    omega
  · intro p
    rw [h, Finset.mem_Icc]

/-- Coordinates covered when two intervals are active: the sum of the lengths when they are
disjoint, the length of their hull when they meet. -/
theorem coveredCoords_two (lb rb l1 r1 l2 r2 : Int) (cs : List Call)
    (h1 : lb ≤ l1) (h2 : l1 ≤ r1) (h3 : r1 ≤ rb) (h4 : lb ≤ l2) (h5 : l2 ≤ r2) (h6 : r2 ≤ rb)
    (h : ∀ p, activeAt cs p ↔ (l1 ≤ p ∧ p ≤ r1) ∨ (l2 ≤ p ∧ p ≤ r2)) :
    coveredCoords lb rb cs =
      if r1 < l2 ∨ r2 < l1 then (r1 - l1 + 1) + (r2 - l2 + 1)
      else max r1 r2 - min l1 l2 + 1 := by
  rw [coveredCoords_eq_card lb rb cs (Finset.Icc l1 r1 ∪ Finset.Icc l2 r2)]
  · split
    · rename_i hd
      rw [Finset.card_union_of_disjoint, Nat.cast_add, Int.card_Icc, Int.card_Icc]
      · omega
      · rw [Finset.disjoint_left]
        intro p hp hq
        rw [Finset.mem_Icc] at hp hq
        omega
    · rename_i hd
      have : Finset.Icc l1 r1 ∪ Finset.Icc l2 r2 = Finset.Icc (min l1 l2) (max r1 r2) := by
        ext p
        simp only [Finset.mem_union, Finset.mem_Icc]
        omega
      rw [this, Int.card_Icc]
      omega
  · intro p hp
    rw [Finset.mem_union, Finset.mem_Icc, Finset.mem_Icc] at hp
    omega
  · intro p
    rw [h, Finset.mem_union, Finset.mem_Icc, Finset.mem_Icc]

theorem activeAt_iff (cs : List Call) (p : Int) :
    activeAt cs p ↔ ∃ l r, l ≤ p ∧ p ≤ r ∧ 0 < net cs l r := by
  constructor
  · rintro ⟨c, _, h1, h2, h3⟩
    exact ⟨c.1, c.2.1, h1, h2, h3⟩
  · rintro ⟨l, r, h1, h2, h3⟩
    obtain ⟨c, hc, e1, e2⟩ := net_pos_mem cs l r h3
    exact ⟨c, hc, by rw [e1]; exact h1, by rw [e2]; exact h2, by rw [e1, e2]; exact h3⟩

theorem net_two (l1 r1 l2 r2 l r : Int) :
    net [(l1, r1, 1), (l2, r2, 1)] l r =
      (if (l1, r1) = (l, r) then 1 else 0) + (if (l2, r2) = (l, r) then 1 else 0) := by
  rw [net_cons, net_single]

theorem net_same (l r : Int) (cs : List Call) (h : ∀ c ∈ cs, c.1 = l ∧ c.2.1 = r)
    (l1 r1 : Int) : net cs l1 r1 = if (l, r) = (l1, r1) then valSum cs else 0 := by
  unfold net
  split
  · rename_i he
    have a1 : l = l1 := congrArg Prod.fst he
    have a2 : r = r1 := congrArg Prod.snd he
    congr 1
    rw [List.filter_eq_self]
    intro c hc
    have := h c hc
    simp [this.1, this.2, a1, a2]
  · rename_i he
    have : cs.filter (fun c => decide (c.1 = l1 ∧ c.2.1 = r1)) = [] := by
      rw [List.filter_eq_nil_iff]
      intro c hc hd
      have h1 := h c hc
      have h2 : c.1 = l1 ∧ c.2.1 = r1 := by simpa using hd
      apply he
      rw [← h1.1, ← h1.2, h2.1, h2.2]
    rw [this, valSum_nil]

/-- Calls that all concern one interval `[l, r]` inside `[0, W - 1]`, with a non-negative
sum: the root counts the whole interval when the sum is positive and nothing otherwise. -/
theorem runUpdates_same_interval (W : Int) (hW : 1 ≤ W) (l r : Int) (h1 : 0 ≤ l) (h2 : l ≤ r)
    (h3 : r ≤ W - 1) (cs : List Call) (h : ∀ c ∈ cs, c.1 = l ∧ c.2.1 = r)
    (hs : 0 ≤ valSum cs) :
    ∃ t, runUpdates (SegmentTree.new 0 (W - 1)) cs = some t ∧
      t.covered_cell_count = if 0 < valSum cs then r - l + 1 else 0 := by
  have hn : ∀ l1 r1, 0 ≤ net cs l1 r1 := by
    intro l1 r1
    rw [net_same l r cs h]
    split
    · exact hs
    · exact le_refl 0
  obtain ⟨t, hrun, hcov⟩ := runUpdates_covered W hW cs hn
  refine ⟨t, hrun, ?_⟩
  rw [hcov]
  split
  · rename_i hpos
    apply coveredCoords_one 0 (W - 1) l r cs h1 h2 h3
    intro p
    rw [activeAt_iff]
    constructor
    · rintro ⟨l1, r1, ha, hb, hc⟩
      rw [net_same l r cs h] at hc
      by_cases he : (l, r) = (l1, r1)
      · have a1 : l = l1 := congrArg Prod.fst he
        have a2 : r = r1 := congrArg Prod.snd he
        omega
      · rw [if_neg he] at hc
        exact absurd hc (lt_irrefl 0)
    · rintro ⟨ha, hb⟩
      exact ⟨l, r, ha, hb, by rw [net_same l r cs h, if_pos rfl]; exact hpos⟩
  · rename_i hpos
    apply coveredCoords_none
    intro p _ _
    rw [activeAt_iff]
    rintro ⟨l1, r1, _, _, hc⟩
    rw [net_same l r cs h] at hc
    split at hc
    · exact hpos hc
    · exact absurd hc (lt_irrefl 0)

theorem runUpdates_append : ∀ (a b : List Call) (t : SegmentTree),
    runUpdates t (a ++ b) = (runUpdates t a).bind (fun t1 => runUpdates t1 b) := by
  intro a
  induction a with
  | nil =>
    intro b t
    rfl
  | cons c a ih =>
    intro b t
    simp only [List.cons_append, runUpdates]
    cases t.update c.1 c.2.1 c.2.2 with
    | none => rfl
    | some t1 => exact ih b t1

/-- Claim C8 (end-to-end example). With `W = 10`, the event `(5, 3)` is mapped to the
interval `[2, 7]`; on the fresh tracker it is an insertion, after which the root's
`covered_cell_count` read by the output statement is `6`; a second event `(5, 3)` finds the
key in the set, so it is a removal, after which the value read is `0` and the set is empty. -/
theorem end_to_end_example :
    H.eventLeft 5 3 = 2 ∧ H.eventRight 5 3 = 7 ∧
    (H.main 10 [(5, 3)]).map (fun p => (p.1.T.covered_cell_count, p.1.mountains, p.2)) =
      some (6, {(5, 3)}, [6]) ∧
    (H.main 10 [(5, 3), (5, 3)]).map
      (fun p => (p.1.T.covered_cell_count, p.1.mountains, p.2)) = some (0, ∅, [6, 0]) := by
  decide

/-! ## Range of the interval counters and of the values passed by `main` -/

theorem valSum_bounded (cs : List Call) (h : ∀ c ∈ cs, c.2.2 = 1 ∨ c.2.2 = -1) :
    -(cs.length : Int) ≤ valSum cs ∧ valSum cs ≤ cs.length := by
  induction cs with
  | nil => simp [valSum_nil]
  | cons c cs ih =>
    have ih1 := ih (fun c1 hc1 => h c1 (List.mem_cons_of_mem _ hc1))
    have hc := h c (List.mem_cons_self _ _)
    rw [valSum_cons, List.length_cons]
    push_cast
    omega

theorem Represents.interval_count_eq {t : SegmentTree} {cs : List Call} (h : Represents t cs) :
    t.interval_count = valSum (cs.filter (coversNode t.left_bound t.right_bound)) := by
  cases h with
  | leaf lb rb ic cc cs h0 hle hic hcc hsp => exact hic
  | node lb rb ic cc l r cs h0 hlt hic hcc hl1 hl2 hr1 hr2 hl hr => exact hic

/-- The counter of a node moves by at most one per call: after calls that are insertions or
removals, every `interval_count` is between minus the number of calls and the number of
calls, so it stays inside `int` while fewer than `2^31` calls have been made. -/
theorem interval_count_bounded {t : SegmentTree} {cs : List Call} (h : Represents t cs)
    (hu : ∀ c ∈ cs, c.2.2 = 1 ∨ c.2.2 = -1) :
    ∀ n ∈ t.nodes, -(cs.length : Int) ≤ n.interval_count ∧ n.interval_count ≤ cs.length := by
  intro n hn
  obtain ⟨cs1, hrep1, hsub⟩ := h.of_mem_nodes n hn
  have hsub2 : (cs1.filter (coversNode n.left_bound n.right_bound)).Sublist cs :=
    (List.filter_sublist _).trans hsub
  have hb := valSum_bounded (cs1.filter (coversNode n.left_bound n.right_bound))
    (fun c hc => hu c (hsub2.subset hc))
  have hlen := hsub2.length_le
  rw [hrep1.interval_count_eq]
  omega

/-- Counterexample to claim C9 as stated. The width `W = 2^32` and the event
`(x, y) = (2^31, 2^31)` are 64-bit values with `0 ≤ x - y` and `x + y - 1 ≤ W - 1`, yet
`int right = x + y - 1` is `-1` instead of `2^32 - 1`, the key under which the mountain is
stored is `(-2^31, -2^31)` instead of `(x, y)`, and the program reads a covered count of `0`
where the interval `[0, 2^32 - 1]` covers all `2^32` coordinates. -/
theorem numeric_domain_counterexample :
    ((-9223372036854775808 : Int) ≤ 4294967296 ∧ (4294967296 : Int) < 9223372036854775808) ∧
    ((-9223372036854775808 : Int) ≤ 2147483648 ∧ (2147483648 : Int) < 9223372036854775808) ∧
    (0 : Int) ≤ 2147483648 - 2147483648 ∧
    (2147483648 : Int) + 2147483648 - 1 ≤ 4294967296 - 1 ∧
    H.eventLeft 2147483648 2147483648 = 0 ∧
    H.eventRight 2147483648 2147483648 = -1 ∧
    H.eventRight 2147483648 2147483648 ≠ 2147483648 + 2147483648 - 1 ∧
    H.eventKey 2147483648 2147483648 = (-2147483648, -2147483648) ∧
    H.eventKey 2147483648 2147483648 ≠ (2147483648, 2147483648) ∧
    (H.main 4294967296 [(2147483648, 2147483648)]).map Prod.snd = some [0] := by
  decide

/-- Claim C9, amended. Bounds and covered counts are integers of the tree, but the endpoints
and the key of an event pass through `int`: for every event `(x, y)` such that `x`, `y`,
`x - y` and `x + y - 1` are representable as 32-bit signed integers, the loop of `main`, in
any state, calls `update` with exactly `interval_left = x - y` and
`interval_right = x + y - 1` and looks up, erases or inserts exactly the pair `(x, y)`.
For every width and every list of events the loop returns, and every node's
`interval_count` lies between minus the number of events and the number of events, so that
it does not leave the range of `int` while fewer than `2^31` events are processed. -/
theorem numeric_domain_int32 (W : Int) (es : List (Int × Int)) (x y : Int)
    (hx : -2147483648 ≤ x ∧ x < 2147483648) (hy : -2147483648 ≤ y ∧ y < 2147483648)
    (hl : -2147483648 ≤ x - y ∧ x - y < 2147483648)
    (hr : -2147483648 ≤ x + y - 1 ∧ x + y - 1 < 2147483648) :
    (∀ s : H.MainState, H.processEvent s (x, y) =
      if (x, y) ∈ s.mountains then
        (s.T.update (x - y) (x + y - 1) (-1)).map (fun T1 => ⟨T1, s.mountains.erase (x, y)⟩)
      else
        (s.T.update (x - y) (x + y - 1) 1).map (fun T1 => ⟨T1, insert (x, y) s.mountains⟩)) ∧
    ∃ s outs, H.main W es = some (s, outs) ∧
      ∀ n ∈ s.T.nodes, -(es.length : Int) ≤ n.interval_count ∧
        n.interval_count ≤ es.length := by
  constructor
  · intro s
    have hk : H.eventKey x y = (x, y) := by
      unfold H.eventKey
      rw [toInt32_of_range x hx.1 hx.2, toInt32_of_range y hy.1 hy.2]
    have h1 : H.eventLeft x y = x - y := toInt32_of_range _ hl.1 hl.2
    have h2 : H.eventRight x y = x + y - 1 := toInt32_of_range _ hr.1 hr.2
    simp only [H.processEvent, hk, h1, h2]
    split
    · cases s.T.update (x - y) (x + y - 1) (-1) <;> rfl
    · cases s.T.update (x - y) (x + y - 1) 1 <;> rfl
  · by_cases hW : 1 ≤ W
    · obtain ⟨s, outs, cs, hloop, hinv, _, _, hlen, _⟩ :=
        mainLoop_inv W es (H.initial W) [] (MainInv.initial W hW)
      refine ⟨s, outs, hloop, ?_⟩
      have hb := interval_count_bounded hinv.1 hinv.2.2.2.2
      rw [hlen, List.length_nil, zero_add] at hb
      exact hb
    · have hinit : H.initial W = ⟨emptySpanTree W 0, ∅⟩ := rfl
      obtain ⟨ic1, M1, outs, hloop, h1, h2⟩ :=
        mainLoop_emptySpan_bounded W (by omega) es 0 ∅
      refine ⟨_, outs, by rw [H.main, hinit]; exact hloop, ?_⟩
      intro n hn
      simp only [emptySpanTree, SegmentTree.nodes_leaf, List.mem_singleton] at hn
      rw [hn, SegmentTree.interval_count_mk]
      omega

theorem numeric_domain_int32_witness :
    ((-2147483648 : Int) ≤ 5 ∧ (5 : Int) < 2147483648) ∧
    ((-2147483648 : Int) ≤ 3 ∧ (3 : Int) < 2147483648) ∧
    ((-2147483648 : Int) ≤ 5 - 3 ∧ (5 : Int) - 3 < 2147483648) ∧
    ((-2147483648 : Int) ≤ 5 + 3 - 1 ∧ (5 : Int) + 3 - 1 < 2147483648) ∧
    ((∀ s : H.MainState, H.processEvent s (5, 3) =
      if (5, 3) ∈ s.mountains then
        (s.T.update (5 - 3) (5 + 3 - 1) (-1)).map (fun T1 => ⟨T1, s.mountains.erase (5, 3)⟩)
      else
        (s.T.update (5 - 3) (5 + 3 - 1) 1).map (fun T1 => ⟨T1, insert (5, 3) s.mountains⟩)) ∧
    ∃ s outs, H.main 10 [(5, 3), (2, 1)] = some (s, outs) ∧
      ∀ n ∈ s.T.nodes, -(([((5 : Int), (3 : Int)), (2, 1)]).length : Int) ≤ n.interval_count ∧
        n.interval_count ≤ ([((5 : Int), (3 : Int)), (2, 1)]).length) :=
  ⟨by decide, by decide, by decide, by decide,
    numeric_domain_int32 10 [(5, 3), (2, 1)] 5 3 (by decide) (by decide) (by decide)
      (by decide)⟩

/-! ## The node invariant -/

theorem Represents.nodeInvariant {t : SegmentTree} {cs : List Call} (h : Represents t cs) :
    NodeInvariant t := by
  cases h with
  | leaf lb rb ic cc cs h0 hle hic hcc hsp =>
    constructor
    · intro hp
      simp only [SegmentTree.interval_count_mk] at hp
      simp only [SegmentTree.covered_cell_count_mk, SegmentTree.left_bound_mk,
        SegmentTree.right_bound_mk]
      rw [hcc, if_pos hp]
    · intro hz
      simp only [SegmentTree.interval_count_mk] at hz
      simp only [SegmentTree.covered_cell_count_mk, SegmentTree.left_child_mk,
        SegmentTree.right_child_mk]
      rw [hcc, if_neg (by omega)]
  | node lb rb ic cc l r cs h0 hlt hic hcc hl1 hl2 hr1 hr2 hl hr =>
    constructor
    · intro hp
      simp only [SegmentTree.interval_count_mk] at hp
      simp only [SegmentTree.covered_cell_count_mk, SegmentTree.left_bound_mk,
        SegmentTree.right_bound_mk]
      rw [hcc, if_pos hp]
    · intro hz
      simp only [SegmentTree.interval_count_mk] at hz
      simp only [SegmentTree.covered_cell_count_mk, SegmentTree.left_child_mk,
        SegmentTree.right_child_mk]
      rw [hcc, if_neg (by omega)]

/-- Claim C15 (non-intersecting query is a no-op). For every node and every call
`update(l, r, d)` with `r < left_bound` or `l > right_bound`, the call returns the node as
it was: same `interval_count`, same `covered_cell_count`, same children with their whole
subtrees, no node created. In particular, on the root of any tree built from
`SegmentTree(0, W - 1)`, a query with `r < 0` or `l > W - 1` leaves the whole tree
unchanged. -/
theorem non_intersecting_noop (t : SegmentTree) (l r d : Int)
    (h : r < t.left_bound ∨ l > t.right_bound) :
    t.update l r d = some t ∧
      ∀ (W : Int) (cs : List Call) (t0 : SegmentTree), 1 ≤ W →
        runUpdates (SegmentTree.new 0 (W - 1)) cs = some t0 →
        ∀ l0 r0 d0 : Int, (r0 < 0 ∨ l0 > W - 1) → t0.update l0 r0 d0 = some t0 := by
  have key : ∀ (t : SegmentTree) (l r d : Int), (r < t.left_bound ∨ l > t.right_bound) →
      t.update l r d = some t := by
    intro t l r d h
    obtain ⟨lb, rb, ic, cc, lch, rch⟩ := t
    simp only [SegmentTree.left_bound_mk, SegmentTree.right_bound_mk] at h
    simp only [SegmentTree.update, SegmentTree.updateFuel, if_pos h]
  refine ⟨key t l r d h, ?_⟩
  intro W cs t0 hW hrun l0 r0 d0 h0
  obtain ⟨t1, hrun1, _, hb1, hb2⟩ := runUpdates_new W hW cs
  rw [hrun] at hrun1
  simp only [Option.some.injEq] at hrun1
  apply key
  rw [hrun1, hb1, hb2]
  exact h0

theorem non_intersecting_noop_witness :
    ((4 : Int) < (SegmentTree.new 5 9).left_bound ∨ (-3 : Int) > (SegmentTree.new 5 9).right_bound)
      ∧ ((SegmentTree.new 5 9).update (-3) 4 1 = some (SegmentTree.new 5 9) ∧
      ∀ (W : Int) (cs : List Call) (t0 : SegmentTree), 1 ≤ W →
        runUpdates (SegmentTree.new 0 (W - 1)) cs = some t0 →
        ∀ l0 r0 d0 : Int, (r0 < 0 ∨ l0 > W - 1) → t0.update l0 r0 d0 = some t0) :=
  ⟨Or.inl (by decide), non_intersecting_noop (SegmentTree.new 5 9) (-3) 4 1 (Or.inl (by decide))⟩

theorem Represents.shapeInvariant {t : SegmentTree} {cs : List Call} (h : Represents t cs) :
    ShapeInvariant t := by
  cases h with
  | leaf lb rb ic cc cs h0 hle hic hcc hsp =>
    exact ⟨hle, trivial⟩
  | node lb rb ic cc l r cs h0 hlt hic hcc hl1 hl2 hr1 hr2 hl hr =>
    have hbl := hl.bounds
    have hbr := hr.bounds
    have hdiv : (lb + rb).tdiv 2 = (lb + rb) / 2 := Int.tdiv_eq_ediv (by omega) (by omega)
    refine ⟨le_of_lt hlt, ?_⟩
    simp only [SegmentTree.left_child_mk, SegmentTree.right_child_mk,
      SegmentTree.left_bound_mk, SegmentTree.right_bound_mk]
    rw [← hdiv]
    exact ⟨hlt, hl1, hl2, hr1, hr2, hbl.2, hbr.2⟩

theorem SegmentTree.nodesWithParent_leaf (lb rb ic cc : Int) (par : Option (Int × Int)) :
    (SegmentTree.mk lb rb ic cc none none).nodesWithParent par =
      [(SegmentTree.mk lb rb ic cc none none, par)] := by
  simp [SegmentTree.nodesWithParent]

theorem SegmentTree.nodesWithParent_node (lb rb ic cc : Int) (l r : SegmentTree)
    (par : Option (Int × Int)) :
    (SegmentTree.mk lb rb ic cc (some l) (some r)).nodesWithParent par =
      (SegmentTree.mk lb rb ic cc (some l) (some r), par) ::
        (l.nodesWithParent (some (lb, rb)) ++ r.nodesWithParent (some (lb, rb))) := by
  simp [SegmentTree.nodesWithParent]

/-- The calls that reach a child are, among the calls that meet its span, those that do not
contain the span of its parent. -/
theorem reach_child (lb rb lb1 rb1 : Int) (R : Call → Bool) (par : Option (Int × Int))
    (hin : lb ≤ lb1 ∧ lb1 ≤ rb1 ∧ rb1 ≤ rb)
    (hR : ∀ c, missesNode lb rb c = false → (R c = true ↔ missesParent par c = true))
    (hpar : parentContains par lb rb)
    (c : Call) (hc : missesNode lb1 rb1 c = false) :
    ((splitsNode lb rb c && R c) = true ↔ missesParent (some (lb, rb)) c = true) := by
  have hm1 : ¬ (c.2.1 < lb1 ∨ c.1 > rb1) := by
    simpa [missesNode] using hc
  have hm : missesNode lb rb c = false := by
    simp only [missesNode, decide_eq_false_iff_not]
    omega
  have hRc := hR c hm
  simp only [splitsNode, hm, missesParent, containsSpan, Bool.not_false, Bool.true_and,
    Bool.and_eq_true, Bool.not_eq_true', decide_eq_false_iff_not]
  constructor
  · rintro ⟨h1, _⟩
    omega
  · intro h1
    refine ⟨by omega, ?_⟩
    rw [hRc]
    cases par with
    | none => rfl
    | some p =>
      simp only [missesParent, containsSpan, Bool.not_eq_true', decide_eq_false_iff_not]
      simp only [parentContains] at hpar
      omega

/-- Every node of a tree that represents the calls `cs0.filter R` represents the calls of
`cs0` selected by some predicate on intervals which, among the calls that meet the span of
the node, selects those that do not contain the span of its parent. -/
theorem Represents.nodes_reach {t : SegmentTree} {cs : List Call} (h : Represents t cs) :
    ∀ (cs0 : List Call) (R : Call → Bool) (par : Option (Int × Int)),
      (∀ c, R c = R (c.1, c.2.1, 0)) → cs = cs0.filter R →
      (∀ c, missesNode t.left_bound t.right_bound c = false →
        (R c = true ↔ missesParent par c = true)) →
      parentContains par t.left_bound t.right_bound →
      ∀ np ∈ t.nodesWithParent par, ∃ R1 : Call → Bool,
        (∀ c, R1 c = R1 (c.1, c.2.1, 0)) ∧ Represents np.1 (cs0.filter R1) ∧
        (∀ c, missesNode np.1.left_bound np.1.right_bound c = false →
          (R1 c = true ↔ missesParent np.2 c = true)) := by
  induction h with
  | leaf lb rb ic cc cs h0 hle hic hcc hsp =>
    intro cs0 R par hR hcs hreach _ np hnp
    rw [SegmentTree.nodesWithParent_leaf, List.mem_singleton] at hnp
    rw [hnp]
    refine ⟨R, hR, ?_, hreach⟩
    rw [← hcs]
    exact Represents.leaf lb rb ic cc cs h0 hle hic hcc hsp
  | node lb rb ic cc l r cs h0 hlt hic hcc hl1 hl2 hr1 hr2 hl hr ihl ihr =>
    intro cs0 R par hR hcs hreach hpar np hnp
    rw [SegmentTree.nodesWithParent_node, List.mem_cons, List.mem_append] at hnp
    simp only [SegmentTree.left_bound_mk, SegmentTree.right_bound_mk] at hreach hpar
    have hm := mid_bounds lb rb h0 hlt
    have hR1 : ∀ c : Call, (splitsNode lb rb c && R c) =
        (splitsNode lb rb (c.1, c.2.1, 0) && R (c.1, c.2.1, 0)) := by
      intro c
      rw [← hR c, ← splitsNode_iv]
    have hcs1 : cs.filter (splitsNode lb rb) =
        cs0.filter (fun c => splitsNode lb rb c && R c) := by
      rw [hcs, List.filter_filter]
    rcases hnp with hnp | hnp | hnp
    · rw [hnp]
      refine ⟨R, hR, ?_, hreach⟩
      rw [← hcs]
      exact Represents.node lb rb ic cc l r cs h0 hlt hic hcc hl1 hl2 hr1 hr2 hl hr
    · apply ihl cs0 (fun c => splitsNode lb rb c && R c) (some (lb, rb)) hR1 hcs1 _ _ np hnp
      · intro c hc
        rw [hl1, hl2] at hc
        exact reach_child lb rb lb ((lb + rb).tdiv 2) R par (by omega) hreach hpar c hc
      · simp only [parentContains]
        rw [hl1, hl2]
        omega
    · apply ihr cs0 (fun c => splitsNode lb rb c && R c) (some (lb, rb)) hR1 hcs1 _ _ np hnp
      · intro c hc
        rw [hr1, hr2] at hc
        exact reach_child lb rb ((lb + rb).tdiv 2 + 1) rb R par (by omega) hreach hpar c hc
      · simp only [parentContains]
        rw [hr1, hr2]
        omega

/-- The statement of `Represents.nodes_reach` for the root of a tree. -/
theorem Represents.root_reach {t : SegmentTree} {cs : List Call} (h : Represents t cs) :
    ∀ np ∈ t.nodesWithParent none, ∃ R1 : Call → Bool,
      (∀ c, R1 c = R1 (c.1, c.2.1, 0)) ∧ Represents np.1 (cs.filter R1) ∧
      (∀ c, missesNode np.1.left_bound np.1.right_bound c = false →
        (R1 c = true ↔ missesParent np.2 c = true)) := by
  apply h.nodes_reach cs (fun _ => true) none (fun _ => rfl)
  · rw [List.filter_eq_self.mpr (fun _ _ => rfl)]
  · intro c _
    simp [missesParent]
  · trivial

theorem Represents.nodesWithParent_fst {t : SegmentTree} {cs : List Call}
    (h : Represents t cs) :
    ∀ par, (t.nodesWithParent par).map Prod.fst = t.nodes := by
  induction h with
  | leaf lb rb ic cc cs h0 hle hic hcc hsp =>
    intro par
    rw [SegmentTree.nodesWithParent_leaf, SegmentTree.nodes_leaf]
    rfl
  | node lb rb ic cc l r cs h0 hlt hic hcc hl1 hl2 hr1 hr2 hl hr ihl ihr =>
    intro par
    rw [SegmentTree.nodesWithParent_node, SegmentTree.nodes_node, List.map_cons,
      List.map_append, ihl, ihr]

/-- The counter of a node is the sum of the calls whose interval contains the span of the
node but not the span of its parent. -/
theorem Represents.interval_count_counted {t : SegmentTree} {cs : List Call}
    (h : Represents t cs) :
    ∀ np ∈ t.nodesWithParent none,
      np.1.interval_count =
        valSum (cs.filter (countedAt np.1.left_bound np.1.right_bound np.2)) := by
  intro np hnp
  obtain ⟨R1, _, hrep1, hreach⟩ := h.root_reach np hnp
  have hb := hrep1.bounds
  rw [hrep1.interval_count_eq, List.filter_filter]
  congr 1
  apply List.filter_congr
  intro c _
  cases hm : missesNode np.1.left_bound np.1.right_bound c with
  | true =>
    have hm1 : c.2.1 < np.1.left_bound ∨ c.1 > np.1.right_bound := by
      simpa [missesNode] using hm
    have hc : containsSpan np.1.left_bound np.1.right_bound c = false := by
      simp only [containsSpan, decide_eq_false_iff_not]
      omega
    simp [coversNode, countedAt, hm, hc]
  | false =>
    have hR := hreach c hm
    have hR1 : R1 c = missesParent np.2 c := by
      rw [Bool.eq_iff_iff]
      exact hR
    have hc : decide (c.1 ≤ np.1.left_bound ∧ c.2.1 ≥ np.1.right_bound) =
        containsSpan np.1.left_bound np.1.right_bound c := by
      simp only [containsSpan, ge_iff_le]
    simp only [coversNode, countedAt, hm, hR1, hc, Bool.not_false, Bool.true_and]

theorem countedAt_iv (lb rb : Int) (par : Option (Int × Int)) (c : Call) :
    countedAt lb rb par c = countedAt lb rb par (c.1, c.2.1, 0) := by
  cases par <;> rfl

/-- When no net count is negative, the calls selected by a predicate on intervals sum to the
number of selected net-active intervals, counted with multiplicity. -/
theorem valSum_filter_eq_multiplicity (P : Call → Bool) (hP : ∀ c, P c = P (c.1, c.2.1, 0))
    (cs : List Call) (hn : ∀ l r, 0 ≤ net cs l r) :
    valSum (cs.filter P) = activeMultiplicity cs P := by
  rw [valSum_filter_eq_sum P hP, activeMultiplicity, Finset.sum_filter, Finset.sum_filter]
  apply Finset.sum_congr rfl
  intro I _
  have h0 := hn I.1 I.2
  by_cases hp : P (I.1, I.2, 0) = true
  · by_cases hpos : 0 < net cs I.1 I.2
    · rw [if_pos hp, if_pos ⟨hp, hpos⟩]
    · rw [if_pos hp, if_neg (fun h => hpos h.2)]
      omega
  · rw [if_neg hp, if_neg (fun h => hp h.1)]

/-- Among the calls that reach a node and the coordinates of its span, being active means
lying in a net-active interval that does not contain the span of the parent. -/
theorem activeAt_filter_reach (lb rb : Int) (par : Option (Int × Int)) (cs : List Call)
    (R : Call → Bool) (hR : ∀ c, R c = R (c.1, c.2.1, 0))
    (hreach : ∀ c, missesNode lb rb c = false → (R c = true ↔ missesParent par c = true))
    (p : Int) (h1 : lb ≤ p) (h2 : p ≤ rb) :
    activeAt (cs.filter R) p ↔ activeBelow par cs p := by
  constructor
  · rintro ⟨c, hc, hl, hr, hpos⟩
    rw [List.mem_filter] at hc
    have hm : missesNode lb rb c = false := by
      simp only [missesNode, decide_eq_false_iff_not]
      omega
    rw [net_filter R hR, if_pos (by rw [← hR c]; exact hc.2)] at hpos
    exact ⟨c, hc.1, (hreach c hm).mp hc.2, hl, hr, hpos⟩
  · rintro ⟨c, hc, hpar, hl, hr, hpos⟩
    have hm : missesNode lb rb c = false := by
      simp only [missesNode, decide_eq_false_iff_not]
      omega
    have hRc : R c = true := (hreach c hm).mpr hpar
    refine ⟨c, ?_, hl, hr, ?_⟩
    · rw [List.mem_filter]
      exact ⟨hc, hRc⟩
    · rw [net_filter R hR, if_pos (by rw [← hR c]; exact hRc)]
      exact hpos

/-- The three branches of `update` on a tree that represents a list of calls: the call
misses the root and nothing changes; or it is counted at the root, whose children stay; or it
splits the root, whose children (the existing ones, or two fresh ones) are updated in
turn. -/
theorem updateFuel_cases {t : SegmentTree} {cs : List Call} (h : Represents t cs) (n : Nat)
    (l r v : Int) (hf : t.right_bound - t.left_bound + 1 ≤ n + 1) :
    ((r < t.left_bound ∨ l > t.right_bound) ∧
      SegmentTree.updateFuel (n + 1) t l r v = some t) ∨
    (¬ (r < t.left_bound ∨ l > t.right_bound) ∧ (l ≤ t.left_bound ∧ r ≥ t.right_bound) ∧
      ∃ cc1, SegmentTree.updateFuel (n + 1) t l r v =
        some (SegmentTree.mk t.left_bound t.right_bound (t.interval_count + v) cc1
          t.left_child t.right_child)) ∨
    (¬ (r < t.left_bound ∨ l > t.right_bound) ∧ ¬ (l ≤ t.left_bound ∧ r ≥ t.right_bound) ∧
      ∃ lc rc lc1 rc1 cs1,
        Represents lc cs1 ∧ Represents rc cs1 ∧
        ((t.left_child = none ∧ t.right_child = none ∧ t.covered_cell_count =
            (if t.interval_count > 0 then t.right_bound - t.left_bound + 1 else 0) ∧
          lc = SegmentTree.new t.left_bound ((t.left_bound + t.right_bound).tdiv 2) ∧
          rc = SegmentTree.new ((t.left_bound + t.right_bound).tdiv 2 + 1) t.right_bound) ∨
         (t.left_child = some lc ∧ t.right_child = some rc ∧ t.covered_cell_count =
            (if t.interval_count > 0 then t.right_bound - t.left_bound + 1
             else lc.covered_cell_count + rc.covered_cell_count))) ∧
        lc.left_bound = t.left_bound ∧
        lc.right_bound = (t.left_bound + t.right_bound).tdiv 2 ∧
        rc.left_bound = (t.left_bound + t.right_bound).tdiv 2 + 1 ∧
        rc.right_bound = t.right_bound ∧
        SegmentTree.updateFuel n lc l r v = some lc1 ∧
        SegmentTree.updateFuel n rc l r v = some rc1 ∧
        SegmentTree.updateFuel (n + 1) t l r v =
          some (SegmentTree.mk t.left_bound t.right_bound t.interval_count
            (if t.interval_count > 0 then t.right_bound - t.left_bound + 1
             else lc1.covered_cell_count + rc1.covered_cell_count)
            (some lc1) (some rc1))) := by
  have hb := h.bounds
  by_cases h1 : r < t.left_bound ∨ l > t.right_bound
  · left
    refine ⟨h1, ?_⟩
    obtain ⟨lb, rb, ic, cc, lch, rch⟩ := t
    simp only [SegmentTree.left_bound_mk, SegmentTree.right_bound_mk] at h1
    simp only [SegmentTree.updateFuel, if_pos h1]
  · right
    by_cases h2 : l ≤ t.left_bound ∧ r ≥ t.right_bound
    · left
      refine ⟨h1, h2, ?_⟩
      cases h with
      | leaf lb rb ic cc cs h0 hle hic hcc hsp =>
        simp only [SegmentTree.left_bound_mk, SegmentTree.right_bound_mk] at h1 h2
        simp only [SegmentTree.updateFuel, if_neg h1, if_pos h2,
          SegmentTree.recalculate_coverage, SegmentTree.left_bound_mk,
          SegmentTree.right_bound_mk, SegmentTree.interval_count_mk,
          SegmentTree.left_child_mk, SegmentTree.right_child_mk]
        split
        · exact ⟨_, rfl⟩
        · exact ⟨_, rfl⟩
      | node lb rb ic cc lc rc cs h0 hlt hic hcc hl1 hl2 hr1 hr2 hl hr =>
        simp only [SegmentTree.left_bound_mk, SegmentTree.right_bound_mk] at h1 h2
        simp only [SegmentTree.updateFuel, if_neg h1, if_pos h2,
          SegmentTree.recalculate_coverage, SegmentTree.left_bound_mk,
          SegmentTree.right_bound_mk, SegmentTree.interval_count_mk,
          SegmentTree.left_child_mk, SegmentTree.right_child_mk]
        split
        · exact ⟨_, rfl⟩
        · exact ⟨_, rfl⟩
    · right
      refine ⟨h1, h2, ?_⟩
      have hlt : t.left_bound < t.right_bound := by omega
      have hm := mid_bounds t.left_bound t.right_bound hb.1 hlt
      have key : ∀ (lb rb ic cc : Int) (lch rch : Option SegmentTree) (lc rc lc1 rc1 : SegmentTree),
          ¬ (r < lb ∨ l > rb) → ¬ (l ≤ lb ∧ r ≥ rb) →
          (SegmentTree.mk lb rb ic cc lch rch).add_children_as_needed =
            SegmentTree.mk lb rb ic cc (some lc) (some rc) →
          SegmentTree.updateFuel n lc l r v = some lc1 →
          SegmentTree.updateFuel n rc l r v = some rc1 →
          SegmentTree.updateFuel (n + 1) (SegmentTree.mk lb rb ic cc lch rch) l r v =
            some (SegmentTree.mk lb rb ic
              (if ic > 0 then rb - lb + 1
               else lc1.covered_cell_count + rc1.covered_cell_count)
              (some lc1) (some rc1)) := by
        intro lb rb ic cc lch rch lc rc lc1 rc1 g1 g2 hadd hl hr
        simp only [SegmentTree.updateFuel, if_neg g1, if_neg g2, hadd, hl, hr,
          SegmentTree.recalculate_coverage]
        split <;> rfl
      cases h with
      | leaf lb rb ic cc cs h0 hle hic hcc hsp =>
        simp only [SegmentTree.left_bound_mk, SegmentTree.right_bound_mk] at h1 h2 hf hm
        have hrl := Represents.new lb ((lb + rb).tdiv 2) h0 hm.1
        have hrr := Represents.new ((lb + rb).tdiv 2 + 1) rb (by omega) (by omega)
        obtain ⟨lc1, hlu, _⟩ := updateFuel_rep n _ _ l r v hrl
          (by simp only [SegmentTree.new, SegmentTree.left_bound_mk,
            SegmentTree.right_bound_mk]; omega)
        obtain ⟨rc1, hru, _⟩ := updateFuel_rep n _ _ l r v hrr
          (by simp only [SegmentTree.new, SegmentTree.left_bound_mk,
            SegmentTree.right_bound_mk]; omega)
        exact ⟨_, _, lc1, rc1, [], hrl, hrr, Or.inl ⟨rfl, rfl, hcc, rfl, rfl⟩, rfl, rfl, rfl,
          rfl, hlu, hru, key lb rb ic cc none none _ _ lc1 rc1 h1 h2 rfl hlu hru⟩
      | node lb rb ic cc lc rc cs h0 hlt2 hic hcc hl1 hl2 hr1 hr2 hl hr =>
        simp only [SegmentTree.left_bound_mk, SegmentTree.right_bound_mk] at h1 h2 hf hm
        obtain ⟨lc1, hlu, _⟩ := updateFuel_rep n lc _ l r v hl (by rw [hl1, hl2]; omega)
        obtain ⟨rc1, hru, _⟩ := updateFuel_rep n rc _ l r v hr (by rw [hr1, hr2]; omega)
        exact ⟨lc, rc, lc1, rc1, _, hl, hr, Or.inr ⟨rfl, rfl, hcc⟩, hl1, hl2, hr1, hr2, hlu,
          hru, key lb rb ic cc (some lc) (some rc) lc rc lc1 rc1 h1 h2 rfl hlu hru⟩

theorem SegmentTree.nodeAt_nil (t : SegmentTree) : t.nodeAt [] = some t := rfl

theorem SegmentTree.nodeAt_false (t : SegmentTree) (p : List Bool) :
    t.nodeAt (false :: p) =
      match t.left_child with
      | none => none
      | some lt => lt.nodeAt p := rfl

theorem SegmentTree.nodeAt_true (t : SegmentTree) (p : List Bool) :
    t.nodeAt (true :: p) =
      match t.right_child with
      | none => none
      | some rt => rt.nodeAt p := rfl

theorem SegmentTree.nodeAt_new (lb rb : Int) (p : List Bool) (n : SegmentTree)
    (h : (SegmentTree.new lb rb).nodeAt p = some n) : p = [] ∧ n = SegmentTree.new lb rb := by
  cases p with
  | nil =>
    rw [SegmentTree.nodeAt_nil, Option.some.injEq] at h
    exact ⟨rfl, h.symm⟩
  | cons b q =>
    cases b with
    | false => simp [SegmentTree.nodeAt_false, SegmentTree.new, SegmentTree.left_child_mk] at h
    | true => simp [SegmentTree.nodeAt_true, SegmentTree.new, SegmentTree.right_child_mk] at h

/-- Frame of one call. Every node of the tree before the call is still there after it, at the
same position and with the same bounds; when the call has `l > r` it also keeps its
`interval_count` and its `covered_cell_count`. -/
theorem updateFuel_frame (fuel : Nat) : ∀ (t : SegmentTree) (cs : List Call) (l r v : Int)
    (t1 : SegmentTree), Represents t cs → t.right_bound - t.left_bound + 1 ≤ fuel →
    SegmentTree.updateFuel fuel t l r v = some t1 →
    ∀ (path : List Bool) (n : SegmentTree), t.nodeAt path = some n →
      ∃ n1, t1.nodeAt path = some n1 ∧ n1.left_bound = n.left_bound ∧
        n1.right_bound = n.right_bound ∧
        (l > r → n1.interval_count = n.interval_count ∧
          n1.covered_cell_count = n.covered_cell_count) := by
  induction fuel with
  | zero =>
    intro t cs l r v t1 h hf
    have := h.bounds
    omega
  | succ k ih =>
    intro t cs l r v t1 h hf hres path n hn
    have hb := h.bounds
    rcases updateFuel_cases h k l r v hf with ⟨_, hu⟩ | ⟨h1, h2, cc1, hu⟩ |
      ⟨h1, h2, lc, rc, lc1, rc1, cs1, hrl, hrr, hkind, hl1, hl2, hr1, hr2, hlu, hru, hu⟩
    · rw [hu, Option.some.injEq] at hres
      rw [← hres]
      exact ⟨n, hn, rfl, rfl, fun _ => ⟨rfl, rfl⟩⟩
    · rw [hu, Option.some.injEq] at hres
      rw [← hres]
      cases path with
      | nil =>
        rw [SegmentTree.nodeAt_nil, Option.some.injEq] at hn
        rw [← hn]
        exact ⟨_, rfl, rfl, rfl, fun hlr => by omega⟩
      | cons b q =>
        cases b with
        | false =>
          rw [SegmentTree.nodeAt_false] at hn
          exact ⟨n, by rw [SegmentTree.nodeAt_false, SegmentTree.left_child_mk]; exact hn,
            rfl, rfl, fun _ => ⟨rfl, rfl⟩⟩
        | true =>
          rw [SegmentTree.nodeAt_true] at hn
          exact ⟨n, by rw [SegmentTree.nodeAt_true, SegmentTree.right_child_mk]; exact hn,
            rfl, rfl, fun _ => ⟨rfl, rfl⟩⟩
    · rw [hu, Option.some.injEq] at hres
      rw [← hres]
      have hm := mid_bounds t.left_bound t.right_bound hb.1 (by omega)
      have hfl : lc.right_bound - lc.left_bound + 1 ≤ k := by rw [hl1, hl2]; omega
      have hfr : rc.right_bound - rc.left_bound + 1 ≤ k := by rw [hr1, hr2]; omega
      have ihl := ih lc cs1 l r v lc1 hrl hfl hlu
      have ihr := ih rc cs1 l r v rc1 hrr hfr hru
      cases path with
      | nil =>
        rw [SegmentTree.nodeAt_nil, Option.some.injEq] at hn
        rw [← hn]
        refine ⟨_, rfl, rfl, rfl, fun hlr => ⟨rfl, ?_⟩⟩
        obtain ⟨a, ha, _, _, hca⟩ := ihl [] lc (SegmentTree.nodeAt_nil lc)
        obtain ⟨b, hb1, _, _, hcb⟩ := ihr [] rc (SegmentTree.nodeAt_nil rc)
        rw [SegmentTree.nodeAt_nil, Option.some.injEq] at ha hb1
        rw [← ha] at hca
        rw [← hb1] at hcb
        rw [SegmentTree.covered_cell_count_mk, (hca hlr).2, (hcb hlr).2]
        rcases hkind with ⟨_, _, hcc, e1, e2⟩ | ⟨_, _, hcc⟩
        · rw [hcc, e1, e2]
          simp only [SegmentTree.new, SegmentTree.covered_cell_count_mk, add_zero]
        · rw [hcc]
      | cons b q =>
        cases b with
        | false =>
          rw [SegmentTree.nodeAt_false] at hn
          rcases hkind with ⟨e0, _, _, _, _⟩ | ⟨e0, _, _⟩
          · rw [e0] at hn
            exact absurd hn (by simp)
          · rw [e0] at hn
            obtain ⟨n1, hn1, hrest⟩ := ihl q n hn
            exact ⟨n1, by rw [SegmentTree.nodeAt_false, SegmentTree.left_child_mk]; exact hn1,
              hrest⟩
        | true =>
          rw [SegmentTree.nodeAt_true] at hn
          rcases hkind with ⟨_, e0, _, _, _⟩ | ⟨_, e0, _⟩
          · rw [e0] at hn
            exact absurd hn (by simp)
          · rw [e0] at hn
            obtain ⟨n1, hn1, hrest⟩ := ihr q n hn
            exact ⟨n1, by rw [SegmentTree.nodeAt_true, SegmentTree.right_child_mk]; exact hn1,
              hrest⟩

/-- The nodes created by a call with `l > r` have count zero and cover nothing. -/
theorem updateFuel_new_nodes (fuel : Nat) : ∀ (t : SegmentTree) (cs : List Call)
    (l r v : Int) (t1 : SegmentTree), Represents t cs →
    t.right_bound - t.left_bound + 1 ≤ fuel → l > r →
    SegmentTree.updateFuel fuel t l r v = some t1 →
    ∀ (path : List Bool) (n1 : SegmentTree), t1.nodeAt path = some n1 →
      t.nodeAt path = none → n1.interval_count = 0 ∧ n1.covered_cell_count = 0 := by
  induction fuel with
  | zero =>
    intro t cs l r v t1 h hf
    have := h.bounds
    omega
  | succ k ih =>
    intro t cs l r v t1 h hf hlr hres path n1 hn1 hnone
    have hb := h.bounds
    rcases updateFuel_cases h k l r v hf with ⟨_, hu⟩ | ⟨h1, h2, cc1, hu⟩ |
      ⟨h1, h2, lc, rc, lc1, rc1, cs1, hrl, hrr, hkind, hl1, hl2, hr1, hr2, hlu, hru, hu⟩
    · rw [hu, Option.some.injEq] at hres
      rw [← hres, hnone] at hn1
      exact absurd hn1 (by simp)
    · omega
    · rw [hu, Option.some.injEq] at hres
      rw [← hres] at hn1
      have hm := mid_bounds t.left_bound t.right_bound hb.1 (by omega)
      have hfl : lc.right_bound - lc.left_bound + 1 ≤ k := by rw [hl1, hl2]; omega
      have hfr : rc.right_bound - rc.left_bound + 1 ≤ k := by rw [hr1, hr2]; omega
      have sub : ∀ (c c1 : SegmentTree) (q : List Bool), Represents c cs1 →
          c.right_bound - c.left_bound + 1 ≤ k →
          SegmentTree.updateFuel k c l r v = some c1 → c1.nodeAt q = some n1 →
          (c.nodeAt q = none ∨ (c.interval_count = 0 ∧ c.covered_cell_count = 0 ∧
            ∀ m, c.nodeAt q = some m → m = c)) →
          n1.interval_count = 0 ∧ n1.covered_cell_count = 0 := by
        intro c c1 q hc hfc hcu hq hor
        cases hcq : c.nodeAt q with
        | none => exact ih c cs1 l r v c1 hc hfc hlr hcu q n1 hq hcq
        | some m =>
          rcases hor with hor | ⟨z1, z2, hm1⟩
          · rw [hcq] at hor
            exact absurd hor (by simp)
          · obtain ⟨n2, hn2, _, _, hsame⟩ := updateFuel_frame k c cs1 l r v c1 hc hfc hcu q m hcq
            rw [hq, Option.some.injEq] at hn2
            rw [hn2, (hsame hlr).1, (hsame hlr).2, hm1 m hcq]
            exact ⟨z1, z2⟩
      cases path with
      | nil =>
        rw [SegmentTree.nodeAt_nil] at hnone
        exact absurd hnone (by simp)
      | cons b q =>
        cases b with
        | false =>
          rw [SegmentTree.nodeAt_false, SegmentTree.left_child_mk] at hn1
          rw [SegmentTree.nodeAt_false] at hnone
          apply sub lc lc1 q hrl hfl hlu hn1
          rcases hkind with ⟨_, _, _, e1, _⟩ | ⟨e0, _, _⟩
          · right
            rw [e1]
            exact ⟨rfl, rfl, fun m hm1 => (SegmentTree.nodeAt_new _ _ q m hm1).2⟩
          · left
            rw [e0] at hnone
            exact hnone
        | true =>
          rw [SegmentTree.nodeAt_true, SegmentTree.right_child_mk] at hn1
          rw [SegmentTree.nodeAt_true] at hnone
          apply sub rc rc1 q hrr hfr hru hn1
          rcases hkind with ⟨_, _, _, _, e2⟩ | ⟨_, e0, _⟩
          · right
            rw [e2]
            exact ⟨rfl, rfl, fun m hm1 => (SegmentTree.nodeAt_new _ _ q m hm1).2⟩
          · left
            rw [e0] at hnone
            exact hnone

theorem SegmentTree.nodes_length_leaf (t : SegmentTree) (h1 : t.left_child = none)
    (h2 : t.right_child = none) : t.nodes.length = 1 := by
  obtain ⟨lb, rb, ic, cc, lch, rch⟩ := t
  simp only [SegmentTree.left_child_mk, SegmentTree.right_child_mk] at h1 h2
  subst h1
  subst h2
  simp [SegmentTree.nodes]

theorem SegmentTree.nodes_length_node (t lc rc : SegmentTree) (h1 : t.left_child = some lc)
    (h2 : t.right_child = some rc) :
    t.nodes.length = 1 + lc.nodes.length + rc.nodes.length := by
  obtain ⟨lb, rb, ic, cc, lch, rch⟩ := t
  simp only [SegmentTree.left_child_mk, SegmentTree.right_child_mk] at h1 h2
  subst h1
  subst h2
  simp [SegmentTree.nodes]
  omega

theorem SegmentTree.nodes_length_same_children (t : SegmentTree) (a b c d : Int) :
    (SegmentTree.mk a b c d t.left_child t.right_child).nodes.length = t.nodes.length := by
  obtain ⟨lb, rb, ic, cc, lch, rch⟩ := t
  cases lch <;> cases rch <;>
    simp [SegmentTree.nodes, SegmentTree.left_child_mk, SegmentTree.right_child_mk]

/-- A call that misses a node, or whose interval contains the span of the node, creates no
node below it. -/
theorem updateFuel_no_growth {t : SegmentTree} {cs : List Call} (h : Represents t cs)
    (k : Nat) (l r v : Int) (t1 : SegmentTree) (hf : t.right_bound - t.left_bound + 1 ≤ k)
    (hres : SegmentTree.updateFuel k t l r v = some t1)
    (hc : (r < t.left_bound ∨ l > t.right_bound) ∨ (l ≤ t.left_bound ∧ r ≥ t.right_bound)) :
    t1.nodes.length = t.nodes.length := by
  have hb := h.bounds
  cases k with
  | zero => omega
  | succ k =>
    rcases updateFuel_cases h k l r v (by push_cast at hf; omega) with ⟨_, hu⟩ |
      ⟨_, _, cc1, hu⟩ | ⟨h1, h2, _⟩
    · rw [hu, Option.some.injEq] at hres
      rw [← hres]
    · rw [hu, Option.some.injEq] at hres
      rw [← hres, SegmentTree.nodes_length_same_children]
    · rcases hc with hc | hc
      · exact absurd hc h1
      · exact absurd hc h2

/-- A call whose interval starts at or before the span of a node, or ends at or after it,
creates at most two nodes per level below the node. -/
theorem updateFuel_growth_anchored (fuel : Nat) : ∀ (t : SegmentTree) (cs : List Call)
    (l r v : Int) (t1 : SegmentTree) (h : Nat), Represents t cs →
    t.right_bound - t.left_bound + 1 ≤ fuel →
    t.right_bound - t.left_bound + 1 ≤ (2 : Int) ^ h →
    (l ≤ t.left_bound ∨ r ≥ t.right_bound) →
    SegmentTree.updateFuel fuel t l r v = some t1 →
    t1.nodes.length ≤ t.nodes.length + 2 * h := by
  induction fuel with
  | zero =>
    intro t cs l r v t1 h hrep hf
    have := hrep.bounds
    omega
  | succ k ih =>
    intro t cs l r v t1 h hrep hf hpow hanch hres
    have hb := hrep.bounds
    rcases updateFuel_cases hrep k l r v hf with ⟨_, hu⟩ | ⟨_, _, cc1, hu⟩ |
      ⟨h1, h2, lc, rc, lc1, rc1, cs1, hrl, hrr, hkind, hl1, hl2, hr1, hr2, hlu, hru, hu⟩
    · rw [hu, Option.some.injEq] at hres
      rw [← hres]
      omega
    · rw [hu, Option.some.injEq] at hres
      rw [← hres, SegmentTree.nodes_length_same_children]
      omega
    · rw [hu, Option.some.injEq] at hres
      have hlt : t.left_bound < t.right_bound := by omega
      have hm := mid_bounds t.left_bound t.right_bound hb.1 hlt
      have hfl : lc.right_bound - lc.left_bound + 1 ≤ k := by rw [hl1, hl2]; omega
      have hfr : rc.right_bound - rc.left_bound + 1 ≤ k := by rw [hr1, hr2]; omega
      have hdiv : (t.left_bound + t.right_bound).tdiv 2 = (t.left_bound + t.right_bound) / 2 :=
        Int.tdiv_eq_ediv (by omega) (by omega)
      have hsize1 : t1.nodes.length = 1 + lc1.nodes.length + rc1.nodes.length := by
        rw [← hres]
        exact SegmentTree.nodes_length_node _ lc1 rc1 rfl rfl
      have hsize0 : 1 + lc.nodes.length + rc.nodes.length ≤ t.nodes.length + 2 := by
        rcases hkind with ⟨e1, e2, _, e3, e4⟩ | ⟨e1, e2, _⟩
        · rw [SegmentTree.nodes_length_leaf t e1 e2, e3, e4]
          simp [SegmentTree.new, SegmentTree.nodes]
        · rw [SegmentTree.nodes_length_node t lc rc e1 e2]
          omega
      cases h with
      | zero =>
        rw [pow_zero] at hpow
        omega
      | succ h =>
        rw [pow_succ] at hpow
        have hpl : lc.right_bound - lc.left_bound + 1 ≤ (2 : Int) ^ h := by
          rw [hl1, hl2, hdiv]; omega
        have hpr : rc.right_bound - rc.left_bound + 1 ≤ (2 : Int) ^ h := by
          rw [hr1, hr2, hdiv]; omega
        have hgl : lc1.nodes.length ≤ lc.nodes.length + 2 * h ∧
            rc1.nodes.length ≤ rc.nodes.length + 2 * h ∧
            (lc1.nodes.length = lc.nodes.length ∨ rc1.nodes.length = rc.nodes.length) := by
          by_cases hmid : r ≤ (t.left_bound + t.right_bound).tdiv 2
          · have z := updateFuel_no_growth hrr k l r v rc1 hfr hru
              (Or.inl (Or.inl (by rw [hr1]; omega)))
            by_cases hl : l ≤ t.left_bound
            · exact ⟨ih lc cs1 l r v lc1 h hrl hfl hpl (Or.inl (by rw [hl1]; exact hl)) hlu,
                by omega, Or.inr z⟩
            · exact ⟨ih lc cs1 l r v lc1 h hrl hfl hpl (Or.inr (by rw [hl2]; omega)) hlu,
                by omega, Or.inr z⟩
          · by_cases hl : l ≤ t.left_bound
            · have z := updateFuel_no_growth hrl k l r v lc1 hfl hlu
                (Or.inr ⟨by rw [hl1]; exact hl, by rw [hl2]; omega⟩)
              exact ⟨by omega,
                ih rc cs1 l r v rc1 h hrr hfr hpr (Or.inl (by rw [hr1]; omega)) hru, Or.inl z⟩
            · have hr : r ≥ t.right_bound := by omega
              by_cases hlm : l ≤ (t.left_bound + t.right_bound).tdiv 2
              · have z := updateFuel_no_growth hrr k l r v rc1 hfr hru
                  (Or.inr ⟨by rw [hr1]; omega, by rw [hr2]; exact hr⟩)
                exact ⟨ih lc cs1 l r v lc1 h hrl hfl hpl (Or.inr (by rw [hl2]; omega)) hlu,
                  by omega, Or.inr z⟩
              · have z := updateFuel_no_growth hrl k l r v lc1 hfl hlu
                  (Or.inl (Or.inr (by rw [hl2]; omega)))
                exact ⟨by omega,
                  ih rc cs1 l r v rc1 h hrr hfr hpr (Or.inr (by rw [hr2]; exact hr)) hru,
                  Or.inl z⟩
        omega

/-- Any call creates at most four nodes per level below the node it is applied to. -/
theorem updateFuel_growth (fuel : Nat) : ∀ (t : SegmentTree) (cs : List Call)
    (l r v : Int) (t1 : SegmentTree) (h : Nat), Represents t cs →
    t.right_bound - t.left_bound + 1 ≤ fuel →
    t.right_bound - t.left_bound + 1 ≤ (2 : Int) ^ h →
    SegmentTree.updateFuel fuel t l r v = some t1 →
    t1.nodes.length ≤ t.nodes.length + 4 * h := by
  induction fuel with
  | zero =>
    intro t cs l r v t1 h hrep hf
    have := hrep.bounds
    omega
  | succ k ih =>
    intro t cs l r v t1 h hrep hf hpow hres
    have hb := hrep.bounds
    rcases updateFuel_cases hrep k l r v hf with ⟨_, hu⟩ | ⟨_, _, cc1, hu⟩ |
      ⟨h1, h2, lc, rc, lc1, rc1, cs1, hrl, hrr, hkind, hl1, hl2, hr1, hr2, hlu, hru, hu⟩
    · rw [hu, Option.some.injEq] at hres
      rw [← hres]
      omega
    · rw [hu, Option.some.injEq] at hres
      rw [← hres, SegmentTree.nodes_length_same_children]
      omega
    · rw [hu, Option.some.injEq] at hres
      have hlt : t.left_bound < t.right_bound := by omega
      have hm := mid_bounds t.left_bound t.right_bound hb.1 hlt
      have hfl : lc.right_bound - lc.left_bound + 1 ≤ k := by rw [hl1, hl2]; omega
      have hfr : rc.right_bound - rc.left_bound + 1 ≤ k := by rw [hr1, hr2]; omega
      have hdiv : (t.left_bound + t.right_bound).tdiv 2 = (t.left_bound + t.right_bound) / 2 :=
        Int.tdiv_eq_ediv (by omega) (by omega)
      have hsize1 : t1.nodes.length = 1 + lc1.nodes.length + rc1.nodes.length := by
        rw [← hres]
        exact SegmentTree.nodes_length_node _ lc1 rc1 rfl rfl
      have hsize0 : 1 + lc.nodes.length + rc.nodes.length ≤ t.nodes.length + 2 := by
        rcases hkind with ⟨e1, e2, _, e3, e4⟩ | ⟨e1, e2, _⟩
        · rw [SegmentTree.nodes_length_leaf t e1 e2, e3, e4]
          simp [SegmentTree.new, SegmentTree.nodes]
        · rw [SegmentTree.nodes_length_node t lc rc e1 e2]
          omega
      cases h with
      | zero =>
        rw [pow_zero] at hpow
        omega
      | succ h =>
        rw [pow_succ] at hpow
        have hpl : lc.right_bound - lc.left_bound + 1 ≤ (2 : Int) ^ h := by
          rw [hl1, hl2, hdiv]; omega
        have hpr : rc.right_bound - rc.left_bound + 1 ≤ (2 : Int) ^ h := by
          rw [hr1, hr2, hdiv]; omega
        have hsum : lc1.nodes.length + rc1.nodes.length ≤
            lc.nodes.length + rc.nodes.length + 4 * h := by
          by_cases hmid : r ≤ (t.left_bound + t.right_bound).tdiv 2
          · have z := updateFuel_no_growth hrr k l r v rc1 hfr hru
              (Or.inl (Or.inl (by rw [hr1]; omega)))
            have g := ih lc cs1 l r v lc1 h hrl hfl hpl hlu
            omega
          · by_cases hlm : l ≤ (t.left_bound + t.right_bound).tdiv 2
            · have g1 := updateFuel_growth_anchored k lc cs1 l r v lc1 h hrl hfl hpl
                (Or.inr (by rw [hl2]; omega)) hlu
              have g2 := updateFuel_growth_anchored k rc cs1 l r v rc1 h hrr hfr hpr
                (Or.inl (by rw [hr1]; omega)) hru
              omega
            · have z := updateFuel_no_growth hrl k l r v lc1 hfl hlu
                (Or.inl (Or.inr (by rw [hl2]; omega)))
              have g := ih rc cs1 l r v rc1 h hrr hfr hpr hru
              omega
        omega

/-- After `n` calls a tree whose root spans at most `2^h` cells has gained at most `4 * h * n`
nodes. -/
theorem runUpdates_growth (h : Nat) : ∀ (cs : List Call) (t : SegmentTree) (cs0 : List Call),
    Represents t cs0 → t.right_bound - t.left_bound + 1 ≤ (2 : Int) ^ h →
    ∃ t1, runUpdates t cs = some t1 ∧ t1.nodes.length ≤ t.nodes.length + 4 * h * cs.length := by
  intro cs
  induction cs with
  | nil =>
    intro t cs0 _ _
    exact ⟨t, rfl, by simp⟩
  | cons c cs ih =>
    intro t cs0 hrep hpow
    have hb := hrep.bounds
    obtain ⟨t1, hu, hrep1, hb1, hb2⟩ := update_rep hrep c.1 c.2.1 c.2.2
    have hg := updateFuel_growth _ t cs0 c.1 c.2.1 c.2.2 t1 h hrep
      (by push_cast; omega) hpow hu
    obtain ⟨t2, hrun, hlen⟩ := ih t1 _ hrep1 (by rw [hb1, hb2]; exact hpow)
    refine ⟨t2, by simp only [runUpdates, hu]; exact hrun, ?_⟩
    rw [List.length_cons]
    have : 4 * h * (cs.length + 1) = 4 * h * cs.length + 4 * h := by ring
    omega

theorem width_le_pow_clog (W : Int) (hW : 1 ≤ W) : W ≤ (2 : Int) ^ Nat.clog 2 W.toNat := by
  have h1 : W.toNat ≤ 2 ^ Nat.clog 2 W.toNat := Nat.le_pow_clog (by decide) _
  have h2 : ((W.toNat : Nat) : Int) ≤ ((2 ^ Nat.clog 2 W.toNat : Nat) : Int) := by
    exact_mod_cast h1
  have h3 : ((W.toNat : Nat) : Int) = W := Int.toNat_of_nonneg (by omega)
  rw [h3] at h2
  exact_mod_cast h2

/-- Counterexample to claim C20 as stated. With `W = 2^32` the events `(0, 0)` and
`(2^31, 2^31)` are in range. Both are insertions; they leave the two distinct members `(0, 0)`
and `(-2^31, -2^31)` in the active set, and for both the interval passed to `update` is
`(0, -1)`. -/
theorem mountain_interval_counterexample :
    EventsInRange 4294967296 [(0, 0), (2147483648, 2147483648)] ∧
    (H.main 4294967296 [(0, 0), (2147483648, 2147483648)]).map
      (fun p => (decide ((0, 0) ∈ p.1.mountains),
        decide ((-2147483648, -2147483648) ∈ p.1.mountains), p.1.mountains.card)) =
      some (true, true, 2) ∧
    ((0 : Int), (0 : Int)) ≠ (-2147483648, -2147483648) ∧
    keyInterval (0, 0) = keyInterval (-2147483648, -2147483648) ∧
    (H.eventLeft 0 0, H.eventRight 0 0) = (0, -1) ∧
    (H.eventLeft 2147483648 2147483648, H.eventRight 2147483648 2147483648) = (0, -1) := by
  decide

theorem EventsInRange.key32 {W : Int} (hW : W ≤ 2147483647) {es : List (Int × Int)}
    (hr : EventsInRange W es) {e : Int × Int} (he : e ∈ es) :
    H.eventKey e.1 e.2 = e ∧ keyInterval e = (e.1 - e.2, e.1 + e.2 - 1) := by
  obtain ⟨h1, h2, h3⟩ := hr e he
  unfold H.eventKey keyInterval
  rw [toInt32_of_range e.1 (by omega) (by omega), toInt32_of_range e.2 (by omega) (by omega),
    toInt32_of_range (e.1 - e.2) (by omega) (by omega),
    toInt32_of_range (e.1 + e.2 - 1) (by omega) (by omega)]
  exact ⟨rfl, rfl⟩

theorem mem_of_mem_mountainsAfter (W : Int) (hW : W ≤ 2147483647) (es : List (Int × Int))
    (hr : EventsInRange W es) (m : Int × Int) (hm : m ∈ mountainsAfter ∅ es) : m ∈ es := by
  rw [mem_mountainsAfter] at hm
  have hpos : 0 < (es.map (fun e => H.eventKey e.1 e.2)).count m := by
    simp only [Finset.not_mem_empty, if_false, zero_add] at hm
    omega
  obtain ⟨e, he, hke⟩ := List.mem_map.mp (List.count_pos_iff.mp hpos)
  rw [(hr.key32 hW he).1] at hke
  rw [← hke]
  exact he

/-- Claim C20, amended. For all integers `x1, y1, x2, y2`, if `x1 - y1 = x2 - y2` and
`x1 + y1 - 1 = x2 + y2 - 1` then `(x1, y1) = (x2, y2)`. Consequently, when the loop of `main`
runs on a width `1 ≤ W ≤ 2^31 - 1` with events in range, every member `(x, y)` of the active
set stands for the interval `[x - y, x + y - 1]` that was passed to `update`, and two distinct
members never stand for the same interval. For all events, in range or not, the interval
passed to `update` depends only on the key of the event, so the remove branch passes the
interval that the matching insert passed. -/
theorem mountain_interval_injective (W : Int) (hW : 1 ≤ W) (hW2 : W ≤ 2147483647)
    (es : List (Int × Int)) (hr : EventsInRange W es) :
    (∀ x1 y1 x2 y2 : Int, x1 - y1 = x2 - y2 → x1 + y1 - 1 = x2 + y2 - 1 →
      (x1, y1) = (x2, y2)) ∧
    (∃ s outs, H.main W es = some (s, outs) ∧
      (∀ m ∈ s.mountains, keyInterval m = (m.1 - m.2, m.1 + m.2 - 1)) ∧
      ∀ m1 ∈ s.mountains, ∀ m2 ∈ s.mountains, m1 ≠ m2 → keyInterval m1 ≠ keyInterval m2) ∧
    (∀ x1 y1 x2 y2 : Int, H.eventKey x1 y1 = H.eventKey x2 y2 →
      H.eventLeft x1 y1 = H.eventLeft x2 y2 ∧ H.eventRight x1 y1 = H.eventRight x2 y2) := by
  have harith : ∀ x1 y1 x2 y2 : Int, x1 - y1 = x2 - y2 → x1 + y1 - 1 = x2 + y2 - 1 →
      (x1, y1) = (x2, y2) := by
    intro x1 y1 x2 y2 h1 h2
    rw [Prod.mk.injEq]
    constructor <;> omega
  refine ⟨harith, ?_, ?_⟩
  · obtain ⟨s, outs, cs2, hloop, _, hm, _, _, _⟩ :=
      mainLoop_inv W es (H.initial W) [] (MainInv.initial W hW)
    have hmem : ∀ m ∈ s.mountains, m ∈ es := by
      intro m hmm
      rw [hm] at hmm
      exact mem_of_mem_mountainsAfter W hW2 es hr m hmm
    have hint : ∀ m ∈ s.mountains, keyInterval m = (m.1 - m.2, m.1 + m.2 - 1) :=
      fun m hmm => (hr.key32 hW2 (hmem m hmm)).2
    refine ⟨s, outs, hloop, hint, ?_⟩
    intro m1 h1 m2 h2 hne heq
    rw [hint m1 h1, hint m2 h2, Prod.mk.injEq] at heq
    have := harith m1.1 m1.2 m2.1 m2.2 heq.1 heq.2
    exact hne this
  · intro x1 y1 x2 y2 hk
    have h1 := keyInterval_eventKey x1 y1
    have h2 := keyInterval_eventKey x2 y2
    rw [hk, h2, Prod.mk.injEq] at h1
    exact ⟨h1.1.symm, h1.2.symm⟩

theorem mountain_interval_injective_witness :
    (1 : Int) ≤ 10 ∧ (10 : Int) ≤ 2147483647 ∧
    EventsInRange 10 [(5, 3), (2, 1), (5, 3), (7, 0), (2, 2)] ∧
    ((∀ x1 y1 x2 y2 : Int, x1 - y1 = x2 - y2 → x1 + y1 - 1 = x2 + y2 - 1 →
      (x1, y1) = (x2, y2)) ∧
    (∃ s outs, H.main 10 [(5, 3), (2, 1), (5, 3), (7, 0), (2, 2)] = some (s, outs) ∧
      (∀ m ∈ s.mountains, keyInterval m = (m.1 - m.2, m.1 + m.2 - 1)) ∧
      ∀ m1 ∈ s.mountains, ∀ m2 ∈ s.mountains, m1 ≠ m2 → keyInterval m1 ≠ keyInterval m2) ∧
    (∀ x1 y1 x2 y2 : Int, H.eventKey x1 y1 = H.eventKey x2 y2 →
      H.eventLeft x1 y1 = H.eventLeft x2 y2 ∧ H.eventRight x1 y1 = H.eventRight x2 y2)) :=
  ⟨by decide, by decide, by decide,
    mountain_interval_injective 10 (by decide) (by decide) _ (by decide)⟩
